import Mathlib

/-!
Shallow embedding of the dependency-ordering core of `node-mono-builder`
(`src/order.ts`, with the graph construction interface of `src/graph.ts`).

Projects are identified by natural-number node ids; a `Graph` holds, for
each node, its configured name, its ordered set of direct dependencies and
its ordered set of direct consumers (JavaScript `Set` iteration order is
insertion order, which we model with duplicate-free lists).  The
`Map<string, T>` of projects is modelled by name lookup over the node list.

All fallible operations return `Except Err`.  The depth-first traversals of
`order.ts` can recurse unboundedly on cyclic inputs, so they take a fuel
parameter and report exhaustion with `Err.fuel`; every theorem about a
produced result is conditioned on an `Except.ok` outcome.
-/

namespace NMB

/-- One project context: `name`, `dependencies`, `consumers`
(`Context` in `src/order.ts`). Edge sets are insertion-ordered lists. -/
structure Ctx where
  name : String
  dependencies : List Nat
  consumers : List Nat
deriving Repr, DecidableEq

/-- The project graph: the value side of the `Map<string, T>` handed to
`order` / `orderMultiple`, indexed by node id. -/
structure Graph where
  nodes : List Ctx
deriving Repr, DecidableEq

/-- Dependencies of node `p` (empty for out-of-range ids). -/
def Graph.deps (g : Graph) (p : Nat) : List Nat :=
  match g.nodes.get? p with
  | some c => c.dependencies
  | none => []

/-- Consumers of node `p` (empty for out-of-range ids). -/
def Graph.cons (g : Graph) (p : Nat) : List Nat :=
  match g.nodes.get? p with
  | some c => c.consumers
  | none => []

/-- Name of node `p`. -/
def Graph.nameOf (g : Graph) (p : Nat) : String :=
  match g.nodes.get? p with
  | some c => c.name
  | none => ""

/-- `projects.get(id)`: resolve a project identifier to its node.
In the constructed graph the map key is exactly the node's configured
name, so lookup scans for the node carrying that name. -/
def Graph.find (g : Graph) (id : String) : Option Nat :=
  g.nodes.findIdx? (fun c => c.name = id) |>.bind (fun i => some i)

/-- Error outcomes of the core (each `exitError` site of `order.ts`). -/
inductive Err where
  /-- `Project '<id>' does not exist` (single-anchor `order`). -/
  | unknownOrder (id : String)
  /-- `Project '<id>' is not defined` (`orderMultiple`). -/
  | unknownMulti (id : String)
  /-- `Project <name> is both a consumer and dependency`. -/
  | contra (name : String)
  /-- `Looped too many times without the right results`. -/
  | loop
  /-- `No remaining missing projects - logic bug`. -/
  | logicBug
  /-- Fuel exhaustion of the embedding: the source recursion does not
  terminate on this input. -/
  | fuel
deriving Repr, DecidableEq

/-- The `commandMap`: a JavaScript `Map` from node to level, iterated in
key-insertion order; updating an existing key keeps its position. -/
abbrev AMap := List (Nat × Int)

/-- `map.get(p)`. -/
def mapGet (m : AMap) (p : Nat) : Option Int :=
  match m.find? (fun kv => kv.1 = p) with
  | some kv => some kv.2
  | none => none

/-- `map.set(p, v)`: in-place update if present, else append. -/
def mapSet (m : AMap) (p : Nat) (v : Int) : AMap :=
  if (m.find? (fun kv => kv.1 = p)).isSome then
    m.map (fun kv => if kv.1 = p then (p, v) else kv)
  else
    m ++ [(p, v)]

/-- `map.delete(p)`. -/
def mapDelete (m : AMap) (p : Nat) : AMap :=
  m.filter (fun kv => ¬ kv.1 = p)

/-- `set.add(x)` on an insertion-ordered `Set`. -/
def setAdd (s : List Nat) (x : Nat) : List Nat :=
  if x ∈ s then s else s ++ [x]

/-- Error-propagating left fold of a step over a node list (the
`forEach` loops of the traversals: `exitError` aborts the process, so an
error short-circuits). -/
def foldSteps (step : Nat → AMap → Except Err AMap) :
    List Nat → AMap → Except Err AMap
  | [], m => .ok m
  | c :: cs, m =>
    match step c m with
    | .error e => .error e
    | .ok m' => foldSteps step cs m'

/-- `depthSearchTreeUp` (`src/order.ts:345`): the ancestor traversal.
Walks consumer edges, keeping the maximum level reached along any path;
an existing negative level is the "both a consumer and dependency"
contradiction; an existing level `≥ level` stops the walk. -/
def dstUp (g : Graph) : Nat → Int → Nat → AMap → Except Err AMap
  | 0, _, _, _ => .error .fuel
  | fuel + 1, level, p, m =>
    let follow (m' : AMap) : Except Err AMap :=
      foldSteps (fun c acc => dstUp g fuel (level + 1) c acc) (g.cons p) m'
    match mapGet m p with
    | none => follow (mapSet m p level)
    | some e =>
      if e = 0 then follow (mapSet m p level)
      else if e < 0 then .error (.contra (g.nameOf p))
      else if level ≤ e then .ok m
      else follow (mapSet m p level)

/-- `depthSearchTreeDown` (`src/order.ts:367`): the descendant traversal,
mirror of `dstUp` along dependency edges with negative levels. -/
def dstDown (g : Graph) : Nat → Int → Nat → AMap → Except Err AMap
  | 0, _, _, _ => .error .fuel
  | fuel + 1, level, p, m =>
    let follow (m' : AMap) : Except Err AMap :=
      foldSteps (fun c acc => dstDown g fuel (level - 1) c acc) (g.deps p) m'
    match mapGet m p with
    | none => follow (mapSet m p level)
    | some e =>
      if e = 0 then follow (mapSet m p level)
      else if 0 < e then .error (.contra (g.nameOf p))
      else if e ≤ level then .ok m
      else follow (mapSet m p level)

/-- Append a project to its level group of the inverted command map
(a `Map<number, T[]>` iterated in key-insertion order). -/
def invAdd (inv : List (Int × List Nat)) (level : Int) (p : Nat) :
    List (Int × List Nat) :=
  if (inv.find? (fun kv => kv.1 = level)).isSome then
    inv.map (fun kv => if kv.1 = level then (kv.1, kv.2 ++ [p]) else kv)
  else
    inv ++ [(level, [p])]

/-- Group lookup in the inverted command map. -/
def invGet (inv : List (Int × List Nat)) (level : Int) : List Nat :=
  match inv.find? (fun kv => kv.1 = level) with
  | some kv => kv.2
  | none => []

/-- The inverted command map of `order`: fold the command map in
insertion order, appending each project to its level group. -/
def invOf (m : AMap) : List (Int × List Nat) :=
  m.foldl (fun acc kv => invAdd acc kv.2 kv.1) []

/-- The keys of the inverted command map sorted ascending
(`Array.from(keys).sort((a, b) => a - b)`). -/
def sortedLevels (m : AMap) : List Int :=
  ((invOf m).map (fun kv => kv.1)).insertionSort (· ≤ ·)

/-- Flattening step of `order`: group map entries by level, sort the
levels ascending, and emit the groups in that order into a result set. -/
def flattenByLevel (m : AMap) : List Nat :=
  (sortedLevels m).foldl
    (fun acc k => (invGet (invOf m) k).foldl setAdd acc) []

/-- `order` (`src/order.ts:116`): single-anchor ordering.  Seeds the
command map with the anchor at level 0, runs the two traversals per the
direction flags, optionally drops the anchor, then flattens by level. -/
def order (g : Graph) (id : String) (including above below : Bool)
    (fuel : Nat) : Except Err (List Nat) :=
  match g.find id with
  | none => .error (.unknownOrder id)
  | some center =>
    let m0 : AMap := mapSet [] center 0
    match (if above then dstUp g fuel 0 center m0 else .ok m0) with
    | .error e => .error e
    | .ok m1 =>
      match (if below then dstDown g fuel 0 center m1 else .ok m1) with
      | .error e => .error e
      | .ok m2 =>
        let m3 := if including then m2 else mapDelete m2 center
        .ok (flattenByLevel m3)

/-- `LOOP_SAFETY` (`src/order.ts:170`). -/
def LOOP_SAFETY : Nat := 20

/-- `checkLoop` (`src/order.ts:171`): fail once the loop counter exceeds
the safety bound. -/
def checkLoop (loopIndex : Nat) : Except Err Unit :=
  if LOOP_SAFETY < loopIndex then .error .loop else .ok ()

/-- `intersect` (`src/order.ts:178`): intersection keeping the order of
the first set. -/
def intersect (setA setB : List Nat) : List Nat :=
  setA.filter (fun x => x ∈ setB)

/-- Inner scan of `findAnyIntersection` over one set: grow the running
union element by element, stopping at the first element already seen. -/
def scanSet : List Nat → List Nat → Option Nat × List Nat
  | [], acc => (none, acc)
  | x :: xs, acc =>
    if x ∈ acc then (some x, acc) else scanSet xs (acc ++ [x])

/-- Outer scan of `findAnyIntersection`: visit the sets in order until a
repeated element (the pivot) is found; otherwise return the full union. -/
def scanSets : List (List Nat) → List Nat → Option Nat × List Nat
  | [], acc => (none, acc)
  | s :: rest, acc =>
    match scanSet s acc with
    | (some p, acc') => (some p, acc')
    | (none, acc') => scanSets rest acc'

/-- `findAnyIntersection` (`src/order.ts:246`): find a pivot shared by at
least two sets; collect every set containing it and their exact
intersection (in the order of the first such set).  With no pivot the
running union is returned with `none`. -/
def findAnyIntersection (sets : List (List Nat)) :
    List Nat × Option (List (List Nat)) :=
  match scanSets sets [] with
  | (none, unionSet) => (unionSet, none)
  | (some pivot, _) =>
    let intersecting := sets.filter (fun s => pivot ∈ s)
    let first := match intersecting with
      | [] => []
      | f :: _ => f
    let real := first.filter (fun x => intersecting.all (fun s => x ∈ s))
    (real, some intersecting)

/-- One call of a `makeSetUntilIterator` closure (`src/order.ts:217`):
emit the elements of the remaining sequence up to (and consuming, but not
emitting) the synchronisation element; `none` drains the rest. -/
def setUntil (u : Option Nat) : List Nat → List Nat × List Nat
  | [] => ([], [])
  | x :: xs =>
    if some x = u then ([], xs)
    else
      let r := setUntil u xs
      (x :: r.1, r.2)

/-- One merge phase of `smartMergeIntersectingSets`: run every iterator up
to the synchronisation element, adding what they emit to the merged set. -/
def mergePhase (u : Option Nat) (iters : List (List Nat))
    (merged : List Nat) : List Nat × List (List Nat) :=
  iters.foldl
    (fun st it =>
      let r := setUntil u it
      (r.1.foldl setAdd st.1, st.2 ++ [r.2]))
    (merged, [])

/-- The synchronized k-way merge loop of `smartMergeIntersectingSets`:
walk the intersection elements as barriers, then flush the iterator
tails with a final `none` phase. -/
def mergeRun : List Nat → List (List Nat) → List Nat → List Nat
  | [], iters, merged => (mergePhase none iters merged).1
  | v :: rest, iters, merged =>
    let st := mergePhase (some v) iters merged
    mergeRun rest st.2 (setAdd st.1 v)

/-- `smartMergeIntersectingSets` (`src/order.ts:291`): if the intersection
already accounts for every element of every intersecting set, it is the
merge; otherwise run the synchronized k-way merge. -/
def smartMergeIntersectingSets (intersection : List Nat)
    (intersectingSets : List (List Nat)) : List Nat :=
  let sizeOfIntersections :=
    intersectingSets.foldl (fun n s => n + s.length) 0
  if intersection.length = sizeOfIntersections then intersection
  else mergeRun intersection intersectingSets []

/-- The harvest loop of `orderMultiple` (`src/order.ts:45`): while some
requested project is unaccounted for, take the first missing one, compute
its full closure, keep only requested projects, and either short-circuit
(the slice covers everything) or record the slice.  The loop counter is
checked against the safety bound after every iteration.  `fuel` is an
artifact of the embedding; `orderMultiple` supplies enough for the
safety bound to fire first. -/
def harvestGo (g : Graph) (dstFuel : Nat) (req : List Nat) :
    Nat → Nat → List Nat → List (List Nat) →
    Except Err (List (List Nat))
  | 0, _, _, _ => .error .fuel
  | _ + 1, _, [], resultSets => .ok resultSets
  | fuel + 1, loopIndex, requested :: missingRest, resultSets =>
    match order g (g.nameOf requested) true true true dstFuel with
    | .error e => .error e
    | .ok resultProjects =>
      let filtered := intersect resultProjects req
      if filtered.length = req.length then
        .ok [filtered]
      else
        let missing' :=
          (requested :: missingRest).filter (fun x => ¬ x ∈ filtered)
        match checkLoop (loopIndex + 1) with
        | .error e => .error e
        | .ok _ =>
          harvestGo g dstFuel req fuel (loopIndex + 1) missing'
            (resultSets ++ [filtered])

/-- The merge loop of `orderMultiple` (`src/order.ts:92`): as long as
`findAnyIntersection` finds a pivot, replace the intersecting sets by
their smart merge; the loop counter is checked after every iteration.
Terminates by returning the final union. -/
def mergeGo (g : Graph) :
    Nat → Nat → List (List Nat) → Except Err (List Nat)
  | 0, _, _ => .error .fuel
  | fuel + 1, loopIndex, resultSets =>
    match findAnyIntersection resultSets with
    | (unionSet, none) => .ok unionSet
    | (intersection, some intersected) =>
      let merged := smartMergeIntersectingSets intersection intersected
      let resultSets' :=
        (resultSets.filter (fun s => ¬ s ∈ intersected)) ++ [merged]
      match checkLoop (loopIndex + 1) with
      | .error e => .error e
      | .ok _ => mergeGo g fuel (loopIndex + 1) resultSets'

/-- Fuel handed to the two loops of `orderMultiple`: one unit per
possible iteration before `checkLoop` fires, plus slack.  Since the
counter is checked after every iteration, 25 units can never run out. -/
def loopFuel : Nat := 25

/-- Resolve the requested identifiers to a deduplicated, insertion-ordered
set of nodes, failing on the first unknown identifier. -/
def resolveIds (g : Graph) : List String → List Nat →
    Except Err (List Nat)
  | [], acc => .ok acc
  | id :: rest, acc =>
    match g.find id with
    | none => .error (.unknownMulti id)
    | some p => resolveIds g rest (setAdd acc p)

/-- `orderMultiple` (`src/order.ts:11`): resolve the ids, harvest ordered
closure slices until every requested project is covered, then repeatedly
merge intersecting slices; the final union is the answer. -/
def orderMultiple (g : Graph) (ids : List String) (dstFuel : Nat) :
    Except Err (List Nat) :=
  match resolveIds g ids [] with
  | .error e => .error e
  | .ok requesting =>
    if requesting.length = 0 then .ok []
    else
      match harvestGo g dstFuel requesting loopFuel 0 requesting [] with
      | .error e => .error e
      | .ok resultSets => mergeGo g loopFuel 0 resultSets

/-! ### Concrete graphs used by counterexamples and witnesses -/

/-- Four projects: `n2` depends on `n0` and `n1`; `n3` depends on `n0`
(with the symmetric consumer edges). -/
def gTopo : Graph := ⟨[
  ⟨"n0", [], [2, 3]⟩,
  ⟨"n1", [], [2]⟩,
  ⟨"n2", [0, 1], []⟩,
  ⟨"n3", [0], []⟩]⟩

/-- A single project that depends on itself (self-edge, symmetric). -/
def gSelf : Graph := ⟨[⟨"s", [0], [0]⟩]⟩

/-- Six projects: `r1` depends on `a` and `x`; `a` on `y`; `r2` on `b`
and `y`; `b` on `x` (with the symmetric consumer edges). -/
def gMerge : Graph := ⟨[
  ⟨"r1", [1, 2], []⟩,
  ⟨"a", [3], [0]⟩,
  ⟨"x", [], [0, 5]⟩,
  ⟨"y", [], [1, 4]⟩,
  ⟨"r2", [5, 3], []⟩,
  ⟨"b", [2], [4]⟩]⟩

/-- Three projects: `c` depends on `r` and on `d` (symmetric edges), so
`d` is weakly connected to `r` through `c` but lies on no monotone
(consumer-only or dependency-only) path from `r`. -/
def gWeak : Graph := ⟨[
  ⟨"r", [], [1]⟩,
  ⟨"c", [0, 2], []⟩,
  ⟨"d", [], [1]⟩]⟩

/-- An edge-asymmetric map of contexts: both `X` and `Y` are listed as
direct consumers and direct dependencies of anchor `A`, and the
dependency list of `A` is iterated `Y` first. -/
def gContra : Graph := ⟨[
  ⟨"A", [2, 1], [1, 2]⟩,
  ⟨"X", [], []⟩,
  ⟨"Y", [], []⟩]⟩

/-- A graph of `n` isolated projects named by their decimal index. -/
def isoGraph (n : Nat) : Graph :=
  ⟨(List.range n).map (fun i => ⟨Nat.repr i, [], []⟩)⟩

/-- The identifiers of the first `n` isolated projects. -/
def isoIds (n : Nat) : List String :=
  (List.range n).map Nat.repr

/-- Reachability along one or more consumer edges (the "ancestor"
relation of the spec: everything that transitively depends on `p`). -/
def ConsPlus (g : Graph) (p q : Nat) : Prop :=
  Relation.TransGen (fun a b => b ∈ g.cons a) p q

/-- Reachability along one or more dependency edges (the "descendant"
relation of the spec: everything `p` transitively depends on). -/
def DepPlus (g : Graph) (p q : Nat) : Prop :=
  Relation.TransGen (fun a b => b ∈ g.deps a) p q

/-- Reachability along zero or more dependency edges. -/
def DepStar (g : Graph) (p q : Nat) : Prop :=
  Relation.ReflTransGen (fun a b => b ∈ g.deps a) p q

/-- Keys of the command map are pairwise distinct (a `Map` invariant). -/
def KeysNodup (m : AMap) : Prop :=
  (m.map Prod.fst).Nodup

/-- Postcondition of a successful `dstUp g fuel ℓ p m = .ok m'` call
(for `0 ≤ ℓ`): (1) every key is unchanged, or now holds a value `≥ ℓ`
that did not shrink, was nonnegative before, and belongs to `p` or to a
consumer-reachable node (with value `≥ ℓ + 1`); (2) `p` ends with value
`≥ ℓ`; (3) any changed node's consumers all hold strictly larger values
(the fixpoint the relaxation establishes); (4) in the branches that
follow consumer edges, every direct consumer of `p` ends `≥ ℓ + 1`;
(5) key uniqueness is preserved. -/
def UpPost (g : Graph) (ℓ : Int) (p : Nat) (m m' : AMap) : Prop :=
  (∀ q, mapGet m' q = mapGet m q ∨
    ∃ v', mapGet m' q = some v' ∧ ℓ ≤ v' ∧
      (q = p ∨ (ConsPlus g p q ∧ ℓ + 1 ≤ v')) ∧
      (∀ v, mapGet m q = some v → v ≤ v' ∧ 0 ≤ v))
  ∧ (∃ vp, mapGet m' p = some vp ∧ ℓ ≤ vp)
  ∧ (∀ q, ¬ mapGet m' q = mapGet m q →
      ∀ c ∈ g.cons q, ∃ vq vc, mapGet m' q = some vq ∧
        mapGet m' c = some vc ∧ vq + 1 ≤ vc)
  ∧ ((mapGet m p = none ∨ mapGet m p = some 0 ∨
      (∃ e, mapGet m p = some e ∧ 0 < e ∧ e < ℓ)) →
      ∀ c ∈ g.cons p, ∃ vc, mapGet m' c = some vc ∧ ℓ + 1 ≤ vc)
  ∧ (KeysNodup m → KeysNodup m')

/-- Postcondition of a successful consumer fold at level `ℓ` (the
`forEach` at `level + 1`): like `UpPost` but relative to the list of
roots `cs`, each of which ends with value `≥ ℓ`. -/
def FoldUpPost (g : Graph) (ℓ : Int) (cs : List Nat) (m m' : AMap) :
    Prop :=
  (∀ q, mapGet m' q = mapGet m q ∨
    ∃ v', mapGet m' q = some v' ∧ ℓ ≤ v' ∧
      (∃ c ∈ cs, q = c ∨ ConsPlus g c q) ∧
      (∀ v, mapGet m q = some v → v ≤ v' ∧ 0 ≤ v))
  ∧ (∀ c ∈ cs, ∃ vc, mapGet m' c = some vc ∧ ℓ ≤ vc)
  ∧ (∀ q, ¬ mapGet m' q = mapGet m q →
      ∀ c ∈ g.cons q, ∃ vq vc, mapGet m' q = some vq ∧
        mapGet m' c = some vc ∧ vq + 1 ≤ vc)
  ∧ (KeysNodup m → KeysNodup m')

/-- Mirror of `UpPost` for `dstDown` (for `ℓ ≤ 0`): values shrink along
dependency edges, changed nodes were nonpositive before, and each
changed node's dependencies hold strictly smaller values. -/
def DownPost (g : Graph) (ℓ : Int) (p : Nat) (m m' : AMap) : Prop :=
  (∀ q, mapGet m' q = mapGet m q ∨
    ∃ v', mapGet m' q = some v' ∧ v' ≤ ℓ ∧
      (q = p ∨ (DepPlus g p q ∧ v' ≤ ℓ - 1)) ∧
      (∀ v, mapGet m q = some v → v' ≤ v ∧ v ≤ 0))
  ∧ (∃ vp, mapGet m' p = some vp ∧ vp ≤ ℓ)
  ∧ (∀ q, ¬ mapGet m' q = mapGet m q →
      ∀ d ∈ g.deps q, ∃ vq vd, mapGet m' q = some vq ∧
        mapGet m' d = some vd ∧ vd + 1 ≤ vq)
  ∧ ((mapGet m p = none ∨ mapGet m p = some 0 ∨
      (∃ e, mapGet m p = some e ∧ e < 0 ∧ ℓ < e)) →
      ∀ d ∈ g.deps p, ∃ vd, mapGet m' d = some vd ∧ vd ≤ ℓ - 1)
  ∧ (KeysNodup m → KeysNodup m')

/-- Facts about the command map after the (possibly skipped) ancestor
phase of `order`: keys unique, the anchor present with a nonnegative
level, every entry nonnegative, every non-anchor entry a strict
consumer-descendant of the anchor, the relaxation fixpoint for positive
entries, and presence of the whole consumer cone when `above` is set. -/
def MidFacts (g : Graph) (a : Bool) (center : Nat) (m1 : AMap) : Prop :=
  KeysNodup m1
  ∧ (∃ v, mapGet m1 center = some v ∧ 0 ≤ v)
  ∧ (∀ q v, mapGet m1 q = some v → 0 ≤ v)
  ∧ (∀ q v, mapGet m1 q = some v → q = center ∨
      (a = true ∧ ConsPlus g center q ∧ 1 ≤ v))
  ∧ (∀ q v, mapGet m1 q = some v → 1 ≤ v →
      ∀ c ∈ g.cons q, ∃ vc, mapGet m1 c = some vc ∧ v + 1 ≤ vc)
  ∧ (a = true → ∀ c ∈ g.cons center,
      ∃ vc, mapGet m1 c = some vc ∧ 1 ≤ vc)
  ∧ (a = true → ∀ q, ConsPlus g center q →
      ∃ v, mapGet m1 q = some v ∧ 1 ≤ v)

/-- Facts about the command map after both traversal phases of `order`
(before the anchor is optionally removed and the map flattened). -/
def FinalFacts (g : Graph) (a b : Bool) (center : Nat) (m2 : AMap) :
    Prop :=
  KeysNodup m2
  ∧ (∃ v, mapGet m2 center = some v)
  ∧ (∀ q v, mapGet m2 q = some v → q = center ∨
      (a = true ∧ ConsPlus g center q ∧ 1 ≤ v) ∨
      (b = true ∧ DepPlus g center q ∧ v ≤ -1))
  ∧ (∀ q v, mapGet m2 q = some v → 1 ≤ v →
      ∀ c ∈ g.cons q, ∃ vc, mapGet m2 c = some vc ∧ v + 1 ≤ vc)
  ∧ (a = true → ∀ c ∈ g.cons center,
      ∃ vc, mapGet m2 c = some vc ∧ 1 ≤ vc)
  ∧ (∀ q v, mapGet m2 q = some v → v ≤ -1 →
      ∀ d ∈ g.deps q, ∃ vd, mapGet m2 d = some vd ∧ vd + 1 ≤ v)
  ∧ (b = true → ∀ d ∈ g.deps center,
      ∃ vd, mapGet m2 d = some vd ∧ vd ≤ -1)
  ∧ (a = true → ∀ q, ConsPlus g center q →
      ∃ v, mapGet m2 q = some v ∧ 1 ≤ v)
  ∧ (b = true → ∀ q, DepPlus g center q →
      ∃ v, mapGet m2 q = some v ∧ v ≤ -1)

/-- Mirror of `FoldUpPost` for the dependency fold of `dstDown`. -/
def FoldDownPost (g : Graph) (ℓ : Int) (cs : List Nat) (m m' : AMap) :
    Prop :=
  (∀ q, mapGet m' q = mapGet m q ∨
    ∃ v', mapGet m' q = some v' ∧ v' ≤ ℓ ∧
      (∃ c ∈ cs, q = c ∨ DepPlus g c q) ∧
      (∀ v, mapGet m q = some v → v' ≤ v ∧ v ≤ 0))
  ∧ (∀ c ∈ cs, ∃ vc, mapGet m' c = some vc ∧ vc ≤ ℓ)
  ∧ (∀ q, ¬ mapGet m' q = mapGet m q →
      ∀ d ∈ g.deps q, ∃ vq vd, mapGet m' q = some vq ∧
        mapGet m' d = some vd ∧ vd + 1 ≤ vq)
  ∧ (KeysNodup m → KeysNodup m')

/-- Every node's configured name resolves back to that node.  This is the
shape of the map built by `parseGraph` (`src/graph.ts:72`): each project
context is keyed by exactly its `name` field, so `projects.get(p.name)`
returns `p` itself. -/
def NamesResolve (g : Graph) : Prop :=
  ∀ p, p < g.nodes.length → g.find (g.nameOf p) = some p

/-! ### State-threading variants (frame property)

The JavaScript functions receive the graph (the `projects` map and the
mutable `Context` records it holds) by reference, so in principle every
call could mutate it.  The variants below make that ability explicit:
the graph is a piece of state handed to every call and returned next to
the ordinary result, and every read goes through the current state.
`claim9_theorem` proves the returned state is always the input graph. -/

/-- State-threading `foldSteps`: each step receives the current graph
state and returns the (possibly updated) state next to the map. -/
def foldStepsSt
    (step : Nat → AMap → Graph → Except Err (AMap × Graph)) :
    List Nat → AMap → Graph → Except Err (AMap × Graph)
  | [], m, g => .ok (m, g)
  | c :: cs, m, g =>
    match step c m g with
    | .error e => .error e
    | .ok (m', g') => foldStepsSt step cs m' g'

/-- State-threading `depthSearchTreeUp`: reads the consumer edges and the
node name from the current graph state and threads the state through the
recursive calls. -/
def dstUpSt : Nat → Int → Nat → AMap → Graph → Except Err (AMap × Graph)
  | 0, _, _, _, _ => .error .fuel
  | fuel + 1, level, p, m, g =>
    let follow (m' : AMap) : Except Err (AMap × Graph) :=
      foldStepsSt (fun c acc gs => dstUpSt fuel (level + 1) c acc gs)
        (g.cons p) m' g
    match mapGet m p with
    | none => follow (mapSet m p level)
    | some e =>
      if e = 0 then follow (mapSet m p level)
      else if e < 0 then .error (.contra (g.nameOf p))
      else if level ≤ e then .ok (m, g)
      else follow (mapSet m p level)

/-- State-threading `depthSearchTreeDown`. -/
def dstDownSt : Nat → Int → Nat → AMap → Graph →
    Except Err (AMap × Graph)
  | 0, _, _, _, _ => .error .fuel
  | fuel + 1, level, p, m, g =>
    let follow (m' : AMap) : Except Err (AMap × Graph) :=
      foldStepsSt (fun c acc gs => dstDownSt fuel (level - 1) c acc gs)
        (g.deps p) m' g
    match mapGet m p with
    | none => follow (mapSet m p level)
    | some e =>
      if e = 0 then follow (mapSet m p level)
      else if 0 < e then .error (.contra (g.nameOf p))
      else if e ≤ level then .ok (m, g)
      else follow (mapSet m p level)

/-- State-threading `order`: the traversals run against the state
returned by the previous phase. -/
def orderSt (id : String) (including above below : Bool) (fuel : Nat)
    (g : Graph) : Except Err (List Nat × Graph) :=
  match g.find id with
  | none => .error (.unknownOrder id)
  | some center =>
    let m0 : AMap := mapSet [] center 0
    match (if above then dstUpSt fuel 0 center m0 g
      else .ok (m0, g)) with
    | .error e => .error e
    | .ok (m1, g1) =>
      match (if below then dstDownSt fuel 0 center m1 g1
        else .ok (m1, g1)) with
      | .error e => .error e
      | .ok (m2, g2) =>
        let m3 := if including then m2 else mapDelete m2 center
        .ok (flattenByLevel m3, g2)

/-- State-threading harvest loop: each `order` call runs against the
current state, and the state it returns feeds the next iteration. -/
def harvestGoSt (dstFuel : Nat) (req : List Nat) :
    Nat → Nat → List Nat → List (List Nat) → Graph →
    Except Err (List (List Nat) × Graph)
  | 0, _, _, _, _ => .error .fuel
  | _ + 1, _, [], resultSets, g => .ok (resultSets, g)
  | fuel + 1, loopIndex, requested :: missingRest, resultSets, g =>
    match orderSt (g.nameOf requested) true true true dstFuel g with
    | .error e => .error e
    | .ok (resultProjects, g') =>
      let filtered := intersect resultProjects req
      if filtered.length = req.length then
        .ok ([filtered], g')
      else
        let missing' :=
          (requested :: missingRest).filter (fun x => ¬ x ∈ filtered)
        match checkLoop (loopIndex + 1) with
        | .error e => .error e
        | .ok _ =>
          harvestGoSt dstFuel req fuel (loopIndex + 1) missing'
            (resultSets ++ [filtered]) g'

/-- State-threading merge loop (the source loop never reads the graph;
the state is carried to witness exactly that). -/
def mergeGoSt : Nat → Nat → List (List Nat) → Graph →
    Except Err (List Nat × Graph)
  | 0, _, _, _ => .error .fuel
  | fuel + 1, loopIndex, resultSets, g =>
    match findAnyIntersection resultSets with
    | (unionSet, none) => .ok (unionSet, g)
    | (intersection, some intersected) =>
      let merged := smartMergeIntersectingSets intersection intersected
      let resultSets' :=
        (resultSets.filter (fun s => ¬ s ∈ intersected)) ++ [merged]
      match checkLoop (loopIndex + 1) with
      | .error e => .error e
      | .ok _ => mergeGoSt fuel (loopIndex + 1) resultSets' g

/-- State-threading id resolution. -/
def resolveIdsSt : List String → List Nat → Graph →
    Except Err (List Nat × Graph)
  | [], acc, g => .ok (acc, g)
  | id :: rest, acc, g =>
    match g.find id with
    | none => .error (.unknownMulti id)
    | some p => resolveIdsSt rest (setAdd acc p) g

/-- State-threading `orderMultiple`: every phase runs against the state
produced by the previous one. -/
def orderMultipleSt (ids : List String) (dstFuel : Nat) (g : Graph) :
    Except Err (List Nat × Graph) :=
  match resolveIdsSt ids [] g with
  | .error e => .error e
  | .ok (requesting, g1) =>
    if requesting.length = 0 then .ok ([], g1)
    else
      match harvestGoSt dstFuel requesting loopFuel 0 requesting []
        g1 with
      | .error e => .error e
      | .ok (resultSets, g2) => mergeGoSt loopFuel 0 resultSets g2

/-! ### C1 — topological validity of result sequences -/

/-- C1 is false for `orderMultiple`: in `gTopo`, requesting all four
projects harvests the disjoint slices `[1, 2]` (from anchor `n1`) and
`[0, 3]` (from anchor `n3`), whose concatenation puts consumer `n2`
before its dependency `n0` even though the edge `n0 → n2` is present and
both endpoints are in the result.  `order` also violates the claim on a
self-dependency: with both traversals disabled the result `[s]` contains
both endpoints of the edge `s → s` at the same index. -/
theorem claim1_counterexample :
    orderMultiple gTopo ["n1", "n2", "n3", "n0"] 40 = .ok [1, 2, 0, 3]
    ∧ 0 ∈ gTopo.deps 2 ∧ 2 ∈ gTopo.cons 0
    ∧ ¬ List.indexOf 0 [1, 2, 0, 3] < List.indexOf 2 [1, 2, 0, 3]
    ∧ order gSelf "s" true false false 10 = .ok [0]
    ∧ 0 ∈ gSelf.deps 0 ∧ 0 ∈ gSelf.cons 0
    ∧ ¬ List.indexOf 0 [0] < List.indexOf 0 [0] := by
  refine ⟨rfl, by decide, by decide, by decide, rfl, by decide, by decide,
    by decide⟩

/-! ### C2 — order-consistency of the synchronized k-way merge -/

/-- C2 is false: running `orderMultiple` on `gMerge` for
`[r1, r2, x, y]` harvests the slices `[y, x, r1]` and `[x, y, r2]`
(nodes `[3, 2, 0]` and `[2, 3, 4]`); the merge phase takes the
synchronized k-way branch (the intersection `[3, 2]` does not account
for all elements) and produces `[2, 3, 4, 0]`, in which `x` precedes
`y` — the opposite of their order in the input slice `[y, x, r1]`. -/
theorem claim2_counterexample :
    harvestGo gMerge 40 [0, 4, 2, 3] loopFuel 0 [0, 4, 2, 3] []
      = .ok [[3, 2, 0], [2, 3, 4]]
    ∧ findAnyIntersection [[3, 2, 0], [2, 3, 4]]
      = ([3, 2], some [[3, 2, 0], [2, 3, 4]])
    ∧ ¬ List.length [3, 2]
        = List.foldl (fun n s => n + s.length) 0 [[3, 2, 0], [2, 3, 4]]
    ∧ smartMergeIntersectingSets [3, 2] [[3, 2, 0], [2, 3, 4]]
      = [2, 3, 4, 0]
    ∧ List.indexOf 3 [3, 2, 0] < List.indexOf 2 [3, 2, 0]
    ∧ ¬ List.indexOf 3 [2, 3, 4, 0] < List.indexOf 2 [2, 3, 4, 0]
    ∧ orderMultiple gMerge ["r1", "r2", "x", "y"] 40 = .ok [2, 3, 4, 0] := by
  refine ⟨rfl, rfl, by decide, rfl, by decide, by decide, rfl⟩

/-! ### C3 — the all-flags closure versus the weak component -/

/-- C3 is false: in `gWeak`, project `d` (node 2) is weakly connected to
the anchor `r` (node 0) by the undirected path `r — c — d`, yet
`order gWeak "r"` with all three flags true returns only `[r, c]`:
the traversals follow consumer-only and dependency-only paths, not
arbitrary undirected ones. -/
theorem claim3_counterexample :
    order gWeak "r" true true true 20 = .ok [0, 1]
    ∧ 1 ∈ gWeak.cons 0 ∧ 2 ∈ gWeak.deps 1 ∧ 1 ∈ gWeak.cons 2
    ∧ ¬ 2 ∈ [0, 1] := by
  refine ⟨rfl, by decide, by decide, by decide, by decide⟩

/-! ### C4 — which project the graph-contradiction error names -/

/-- C4 is false as stated: in `gContra`, node `X` (id 1) is reachable
from anchor `A` both as an ancestor (one consumer edge) and as a
descendant (one dependency edge), so the claim asserts the error names
`X`; but the descendant traversal iterates `A`'s dependency list `Y`
first and fails naming `Y`. -/
theorem claim4_counterexample :
    1 ∈ gContra.cons 0 ∧ 1 ∈ gContra.deps 0
    ∧ gContra.nameOf 1 = "X"
    ∧ order gContra "A" true true true 10 = .error (.contra "Y")
    ∧ Err.contra "Y" ≠ Err.contra "X" := by
  refine ⟨by decide, by decide, rfl, rfl, by decide⟩

/-! ### Basic lemmas about the map and set primitives -/

theorem mapGet_nil (p : Nat) : mapGet [] p = none := rfl

theorem mapGet_cons (kv : Nat × Int) (m : AMap) (p : Nat) :
    mapGet (kv :: m) p = if kv.1 = p then some kv.2 else mapGet m p := by
  by_cases h : kv.1 = p <;> simp [mapGet, List.find?_cons, h]

theorem mapGet_append (m₁ m₂ : AMap) (p : Nat) :
    mapGet (m₁ ++ m₂) p =
      match mapGet m₁ p with
      | some v => some v
      | none => mapGet m₂ p := by
  induction m₁ with
  | nil => simp [mapGet]
  | cons kv m ih =>
    by_cases h : kv.1 = p <;>
      simp [mapGet_cons, h, List.cons_append, ih]

theorem mapGet_isSome_iff (m : AMap) (p : Nat) :
    (mapGet m p).isSome = (m.find? (fun kv => kv.1 = p)).isSome := by
  unfold mapGet
  cases m.find? (fun kv => kv.1 = p) <;> simp

theorem mapGet_replace (m : AMap) (p : Nat) (v : Int) (q : Nat) :
    mapGet (m.map (fun kv => if kv.1 = p then (p, v) else kv)) q =
      if p = q then (mapGet m p).map (fun _ => v) else mapGet m q := by
  induction m with
  | nil => by_cases h : p = q <;> simp [mapGet, h]
  | cons kv m ih =>
    by_cases hkvp : kv.1 = p
    · by_cases hpq : p = q
      · subst hpq
        simp [List.map_cons, hkvp, mapGet_cons]
      · simp [List.map_cons, hkvp, hpq, mapGet_cons, ih]
    · by_cases hkvq : kv.1 = q
      · have hpq : ¬ p = q := fun h => hkvp (h ▸ hkvq)
        have hqp : ¬ q = p := fun h => hpq h.symm
        simp [List.map_cons, hkvp, hkvq, mapGet_cons, hpq, hqp]
      · simp [List.map_cons, hkvp, hkvq, mapGet_cons, ih]

theorem mapGet_mapSet (m : AMap) (p : Nat) (v : Int) (q : Nat) :
    mapGet (mapSet m p v) q = if p = q then some v else mapGet m q := by
  unfold mapSet
  by_cases hf : (m.find? (fun kv => kv.1 = p)).isSome
  · rw [if_pos hf, mapGet_replace]
    by_cases hpq : p = q
    · subst hpq
      have hs : (mapGet m p).isSome := by rw [mapGet_isSome_iff]; exact hf
      rcases Option.isSome_iff_exists.mp hs with ⟨w, hw⟩
      simp [hw]
    · simp [hpq]
  · rw [if_neg hf, mapGet_append]
    have hb : (m.find? (fun kv => kv.1 = p)).isSome = false :=
      Bool.eq_false_iff.mpr hf
    have hnone : mapGet m p = none := by
      have h2 : (mapGet m p).isSome = false := by
        rw [mapGet_isSome_iff]; exact hb
      exact Option.not_isSome_iff_eq_none.mp (by simp [h2])
    by_cases hpq : p = q
    · subst hpq
      simp [hnone, mapGet_cons]
    · simp [mapGet_cons, hpq]
      cases mapGet m q <;> simp [mapGet]

theorem mapGet_eq_none_iff (m : AMap) (p : Nat) :
    mapGet m p = none ↔ ¬ p ∈ m.map Prod.fst := by
  induction m with
  | nil => simp [mapGet]
  | cons kv m ih =>
    rw [mapGet_cons]
    by_cases h : kv.1 = p
    · simp [h]
    · simpa [h, Ne.symm h] using ih

theorem mapGet_mapDelete (m : AMap) (p q : Nat) :
    mapGet (mapDelete m p) q = if p = q then none else mapGet m q := by
  induction m with
  | nil => by_cases h : p = q <;> simp [mapDelete, mapGet, h]
  | cons kv m ih =>
    by_cases hkvp : kv.1 = p
    · by_cases hpq : p = q
      · subst hpq
        simpa [mapDelete, List.filter_cons, hkvp] using ih
      · have hkvq : ¬ kv.1 = q := fun h => hpq (hkvp ▸ h)
        simpa [mapDelete, List.filter_cons, hkvp, mapGet_cons, hkvq, hpq]
          using ih
    · by_cases hkvq : kv.1 = q
      · have hpq : ¬ p = q := fun h => hkvp (h ▸ hkvq)
        have hqp : ¬ q = p := fun h => hpq h.symm
        simp [mapDelete, List.filter_cons, hkvp, mapGet_cons, hkvq, hpq, hqp]
      · simpa [mapDelete, List.filter_cons, hkvp, mapGet_cons, hkvq]
          using ih

theorem keysNodup_mapSet (m : AMap) (p : Nat) (v : Int)
    (h : KeysNodup m) : KeysNodup (mapSet m p v) := by
  unfold mapSet
  by_cases hf : (m.find? (fun kv => kv.1 = p)).isSome
  · rw [if_pos hf]
    unfold KeysNodup at h ⊢
    have : (List.map (fun kv => if kv.1 = p then (p, v) else kv) m).map
        Prod.fst = m.map Prod.fst := by
      rw [List.map_map]
      apply List.map_congr_left
      intro kv _
      by_cases hkv : kv.1 = p <;> simp [hkv]
    rw [this]; exact h
  · rw [if_neg hf]
    unfold KeysNodup at h ⊢
    rw [List.map_append]
    have hb : (m.find? (fun kv => kv.1 = p)).isSome = false :=
      Bool.eq_false_iff.mpr hf
    have hp : p ∉ m.map Prod.fst := by
      rw [← mapGet_eq_none_iff]
      have h2 : (mapGet m p).isSome = false := by
        rw [mapGet_isSome_iff]; exact hb
      exact Option.not_isSome_iff_eq_none.mp (by simp [h2])
    simpa using List.Nodup.append h (List.nodup_singleton p)
      (by simpa [List.disjoint_singleton] using hp)

theorem mem_setAdd (s : List Nat) (x y : Nat) :
    y ∈ setAdd s x ↔ y ∈ s ∨ y = x := by
  unfold setAdd
  by_cases h : x ∈ s
  · simp only [if_pos h]
    constructor
    · exact Or.inl
    · rintro (hy | rfl)
      · exact hy
      · exact h
  · simp [if_neg h]

theorem nodup_setAdd (s : List Nat) (x : Nat) (h : s.Nodup) :
    (setAdd s x).Nodup := by
  unfold setAdd
  by_cases hx : x ∈ s
  · simpa [hx] using h
  · simp only [if_neg hx]
    simpa using List.Nodup.append h (List.nodup_singleton x)
      (by simpa [List.disjoint_singleton] using hx)

theorem setAdd_of_mem {s : List Nat} {x : Nat} (h : x ∈ s) :
    setAdd s x = s := by
  simp [setAdd, h]

theorem setAdd_of_not_mem {s : List Nat} {x : Nat} (h : ¬ x ∈ s) :
    setAdd s x = s ++ [x] := by
  simp [setAdd, h]

theorem mem_foldl_setAdd (xs : List Nat) (acc : List Nat) (y : Nat) :
    y ∈ xs.foldl setAdd acc ↔ y ∈ acc ∨ y ∈ xs := by
  induction xs generalizing acc with
  | nil => simp
  | cons x xs ih =>
    rw [List.foldl_cons, ih]
    rw [mem_setAdd]
    constructor
    · rintro ((hy | rfl) | hy)
      · exact Or.inl hy
      · exact Or.inr (List.mem_cons_self _ _)
      · exact Or.inr (List.mem_cons_of_mem _ hy)
    · rintro (hy | hy)
      · exact Or.inl (Or.inl hy)
      · rcases List.mem_cons.mp hy with rfl | hy
        · exact Or.inl (Or.inr rfl)
        · exact Or.inr hy

theorem nodup_foldl_setAdd (xs : List Nat) (acc : List Nat)
    (h : acc.Nodup) : (xs.foldl setAdd acc).Nodup := by
  induction xs generalizing acc with
  | nil => exact h
  | cons x xs ih => exact ih _ (nodup_setAdd _ _ h)

theorem foldl_setAdd_eq_append (xs : List Nat) (acc : List Nat)
    (hdisj : ∀ x ∈ xs, ¬ x ∈ acc) (hnd : xs.Nodup) :
    xs.foldl setAdd acc = acc ++ xs := by
  induction xs generalizing acc with
  | nil => simp
  | cons x xs ih =>
    rw [List.foldl_cons,
      setAdd_of_not_mem (hdisj x (List.mem_cons_self _ _))]
    rw [ih (acc ++ [x])]
    · simp
    · intro y hy
      rw [List.mem_append]
      rintro (hmem | hmem)
      · exact hdisj y (List.mem_cons_of_mem _ hy) hmem
      · rcases List.mem_singleton.mp hmem with rfl
        exact (List.nodup_cons.mp hnd).1 hy
    · exact (List.nodup_cons.mp hnd).2

/-! ### Lemmas about the inverted command map and `flattenByLevel` -/

theorem invGet_nil (L : Int) : invGet [] L = [] := rfl

theorem invGet_cons (kv : Int × List Nat) (inv : List (Int × List Nat))
    (L : Int) :
    invGet (kv :: inv) L = if kv.1 = L then kv.2 else invGet inv L := by
  by_cases h : kv.1 = L <;> simp [invGet, List.find?_cons, h]

theorem invGet_append (inv₁ inv₂ : List (Int × List Nat)) (L : Int) :
    invGet (inv₁ ++ inv₂) L =
      match inv₁.find? (fun kv => kv.1 = L) with
      | some kv => kv.2
      | none => invGet inv₂ L := by
  induction inv₁ with
  | nil => simp [invGet]
  | cons kv inv ih =>
    by_cases h : kv.1 = L <;>
      simp [invGet_cons, List.find?_cons, h, List.cons_append, ih]

theorem invFind_isSome_iff (inv : List (Int × List Nat)) (L : Int) :
    (inv.find? (fun kv => kv.1 = L)).isSome = true ↔
      L ∈ inv.map Prod.fst := by
  induction inv with
  | nil => simp
  | cons kv inv ih =>
    by_cases h : kv.1 = L
    · simp [List.find?_cons, h]
    · have h' : ¬ L = kv.1 := fun hh => h hh.symm
      simp [List.find?_cons, h, h', ih]

theorem invGet_replace (inv : List (Int × List Nat)) (ℓ : Int) (p : Nat)
    (L : Int) :
    invGet (inv.map (fun kv =>
        if kv.1 = ℓ then (kv.1, kv.2 ++ [p]) else kv)) L =
      if ℓ = L then
        (if L ∈ inv.map Prod.fst then invGet inv L ++ [p] else [])
      else invGet inv L := by
  induction inv with
  | nil => by_cases h : ℓ = L <;> simp [invGet, h]
  | cons kv inv ih =>
    simp only [List.map_cons]
    by_cases hkvl : kv.1 = ℓ
    · rw [if_pos hkvl]
      by_cases hlL : ℓ = L
      · subst hlL
        rw [if_pos rfl]
        rw [invGet_cons, invGet_cons]
        rw [if_pos hkvl, if_pos hkvl]
        rw [if_pos (by rw [hkvl]; exact List.mem_cons_self _ _)]
      · rw [if_neg hlL]
        have hkvL : ¬ kv.1 = L := fun h => hlL (hkvl ▸ h)
        rw [invGet_cons, invGet_cons, if_neg hkvL, if_neg hkvL]
        rw [ih, if_neg hlL]
    · rw [if_neg hkvl]
      by_cases hkvL : kv.1 = L
      · have hlL : ¬ ℓ = L := fun h => hkvl (h ▸ hkvL)
        rw [if_neg hlL, invGet_cons, invGet_cons, if_pos hkvL, if_pos hkvL]
      · rw [invGet_cons, if_neg hkvL, ih]
        by_cases hlL : ℓ = L
        · subst hlL
          rw [if_pos rfl, if_pos rfl]
          have hmem : (ℓ ∈ kv.1 :: inv.map Prod.fst) ↔
              (ℓ ∈ inv.map Prod.fst) := by
            have h' : ¬ ℓ = kv.1 := fun hh => hkvL hh.symm
            simp [h']
          by_cases hin : ℓ ∈ inv.map Prod.fst
          · rw [if_pos hin, if_pos (hmem.mpr hin),
              invGet_cons, if_neg hkvL]
          · rw [if_neg hin, if_neg (fun hh => hin (hmem.mp hh))]
        · rw [if_neg hlL, if_neg hlL, invGet_cons, if_neg hkvL]

theorem invGet_invAdd (inv : List (Int × List Nat)) (ℓ : Int) (p : Nat)
    (L : Int) :
    invGet (invAdd inv ℓ p) L =
      if ℓ = L then invGet inv ℓ ++ [p] else invGet inv L := by
  unfold invAdd
  by_cases hf : (inv.find? (fun kv => kv.1 = ℓ)).isSome
  · rw [if_pos hf, invGet_replace]
    by_cases hlL : ℓ = L
    · subst hlL
      rw [if_pos rfl, if_pos rfl,
        if_pos ((invFind_isSome_iff _ _).mp (by simpa using hf))]
    · rw [if_neg hlL, if_neg hlL]
  · rw [if_neg hf, invGet_append]
    have hb : (inv.find? (fun kv => kv.1 = ℓ)).isSome = false :=
      Bool.eq_false_iff.mpr hf
    have hnone : invGet inv ℓ = [] := by
      unfold invGet
      cases hfind : inv.find? (fun kv => kv.1 = ℓ) with
      | none => rfl
      | some kv => rw [hfind] at hb; simp at hb
    by_cases hlL : ℓ = L
    · subst hlL
      cases hfind : inv.find? (fun kv => kv.1 = ℓ) with
      | none => simp [invGet_cons, hnone]
      | some kv => rw [hfind] at hb; simp at hb
    · cases hfind : inv.find? (fun kv => kv.1 = L) with
      | none => simp [invGet_cons, hlL, invGet, hfind]
      | some kv => simp [invGet_cons, hlL, invGet, hfind]

theorem invKeys_invAdd (inv : List (Int × List Nat)) (ℓ : Int) (p : Nat) :
    (invAdd inv ℓ p).map Prod.fst =
      if ℓ ∈ inv.map Prod.fst then inv.map Prod.fst
      else inv.map Prod.fst ++ [ℓ] := by
  unfold invAdd
  by_cases hf : (inv.find? (fun kv => kv.1 = ℓ)).isSome
  · rw [if_pos hf, if_pos ((invFind_isSome_iff _ _).mp (by simpa using hf))]
    rw [List.map_map]
    apply List.map_congr_left
    intro kv _
    by_cases hkv : kv.1 = ℓ <;> simp [hkv]
  · have hb : (inv.find? (fun kv => kv.1 = ℓ)).isSome = false :=
      Bool.eq_false_iff.mpr hf
    have hnot : ¬ ℓ ∈ inv.map Prod.fst := by
      rw [← invFind_isSome_iff]; simp [hb]
    rw [if_neg hf, if_neg hnot]
    simp

theorem mem_invKeys_invAdd (inv : List (Int × List Nat)) (ℓ : Int)
    (p : Nat) (L : Int) :
    L ∈ (invAdd inv ℓ p).map Prod.fst ↔
      L ∈ inv.map Prod.fst ∨ L = ℓ := by
  rw [invKeys_invAdd]
  by_cases h : ℓ ∈ inv.map Prod.fst
  · rw [if_pos h]
    constructor
    · exact Or.inl
    · rintro (hy | rfl)
      · exact hy
      · exact h
  · rw [if_neg h]
    simp

theorem invKeys_nodup_invAdd (inv : List (Int × List Nat)) (ℓ : Int)
    (p : Nat) (h : (inv.map Prod.fst).Nodup) :
    ((invAdd inv ℓ p).map Prod.fst).Nodup := by
  rw [invKeys_invAdd]
  by_cases hm : ℓ ∈ inv.map Prod.fst
  · rwa [if_pos hm]
  · rw [if_neg hm]
    simpa using List.Nodup.append h (List.nodup_singleton ℓ)
      (by simpa [List.disjoint_singleton] using hm)

theorem invGet_foldl (m : AMap) (acc : List (Int × List Nat)) (L : Int) :
    invGet (m.foldl (fun acc kv => invAdd acc kv.2 kv.1) acc) L =
      invGet acc L ++ (m.filter (fun kv => kv.2 = L)).map Prod.fst := by
  induction m generalizing acc with
  | nil => simp
  | cons kv m ih =>
    rw [List.foldl_cons, ih, invGet_invAdd]
    by_cases h : kv.2 = L
    · subst h
      rw [if_pos rfl, List.filter_cons, if_pos (by simp)]
      simp
    · rw [if_neg h, List.filter_cons, if_neg (by simpa using h)]

theorem invGet_invOf (m : AMap) (L : Int) :
    invGet (invOf m) L = (m.filter (fun kv => kv.2 = L)).map Prod.fst := by
  have := invGet_foldl m [] L
  simpa [invOf, invGet] using this

theorem mem_invGet_invOf (m : AMap) (L : Int) (x : Nat) :
    x ∈ invGet (invOf m) L ↔ (x, L) ∈ m := by
  rw [invGet_invOf]
  constructor
  · intro hx
    rcases List.mem_map.mp hx with ⟨kv, hkv, hfst⟩
    rcases List.mem_filter.mp hkv with ⟨hmem, hsnd⟩
    have h2 : kv.2 = L := by simpa using hsnd
    have : kv = (x, L) := Prod.ext hfst h2
    exact this ▸ hmem
  · intro hx
    exact List.mem_map.mpr ⟨(x, L), List.mem_filter.mpr ⟨hx, by simp⟩, rfl⟩

theorem mem_invKeys_foldl (m : AMap) (acc : List (Int × List Nat))
    (L : Int) :
    L ∈ (m.foldl (fun acc kv => invAdd acc kv.2 kv.1) acc).map Prod.fst ↔
      L ∈ acc.map Prod.fst ∨ ∃ kv ∈ m, kv.2 = L := by
  induction m generalizing acc with
  | nil => simp
  | cons kv m ih =>
    rw [List.foldl_cons, ih, mem_invKeys_invAdd]
    constructor
    · rintro ((hy | rfl) | ⟨kv', hkv', hL⟩)
      · exact Or.inl hy
      · exact Or.inr ⟨kv, List.mem_cons_self _ _, rfl⟩
      · exact Or.inr ⟨kv', List.mem_cons_of_mem _ hkv', hL⟩
    · rintro (hy | ⟨kv', hkv', hL⟩)
      · exact Or.inl (Or.inl hy)
      · rcases List.mem_cons.mp hkv' with rfl | hkv'
        · exact Or.inl (Or.inr hL.symm)
        · exact Or.inr ⟨kv', hkv', hL⟩

theorem mem_invKeys_invOf (m : AMap) (L : Int) :
    L ∈ (invOf m).map Prod.fst ↔ ∃ kv ∈ m, kv.2 = L := by
  have := mem_invKeys_foldl m [] L
  simpa [invOf] using this

theorem invKeys_invOf_nodup (m : AMap) :
    ((invOf m).map Prod.fst).Nodup := by
  unfold invOf
  suffices h : ∀ acc : List (Int × List Nat), (acc.map Prod.fst).Nodup →
      ((m.foldl (fun acc kv => invAdd acc kv.2 kv.1) acc).map
        Prod.fst).Nodup by
    exact h [] (by simp)
  induction m with
  | nil => intro acc h; exact h
  | cons kv m ih =>
    intro acc h
    exact ih _ (invKeys_nodup_invAdd _ _ _ h)

theorem mapGet_some_mem (m : AMap) (x : Nat) (v : Int)
    (h : mapGet m x = some v) : (x, v) ∈ m := by
  unfold mapGet at h
  cases hfind : m.find? (fun kv => kv.1 = x) with
  | none => rw [hfind] at h; exact absurd h (by simp)
  | some kv =>
    rw [hfind] at h
    have hmem := List.mem_of_find?_eq_some hfind
    have hfst : kv.1 = x := by simpa using List.find?_some hfind
    have hsnd : kv.2 = v := by simpa using h
    have : kv = (x, v) := Prod.ext hfst hsnd
    exact this ▸ hmem

theorem key_unique (m : AMap) (hnd : KeysNodup m) {x : Nat} {v v' : Int}
    (h : (x, v) ∈ m) (h' : (x, v') ∈ m) : v = v' := by
  induction m with
  | nil => cases h
  | cons kv m ih =>
    unfold KeysNodup at hnd
    rw [List.map_cons, List.nodup_cons] at hnd
    rcases List.mem_cons.mp h with heq | h
    · rcases List.mem_cons.mp h' with heq' | h'
      · exact congrArg Prod.snd (heq.trans heq'.symm)
      · exfalso
        have hx : x ∈ List.map Prod.fst m :=
          List.mem_map.mpr ⟨(x, v'), h', rfl⟩
        have hk1 : kv.1 = x := congrArg Prod.fst heq.symm
        exact hnd.1 (hk1 ▸ hx)
    · rcases List.mem_cons.mp h' with heq' | h'
      · exfalso
        have hx : x ∈ List.map Prod.fst m :=
          List.mem_map.mpr ⟨(x, v), h, rfl⟩
        have hk1 : kv.1 = x := congrArg Prod.fst heq'.symm
        exact hnd.1 (hk1 ▸ hx)
      · exact ih hnd.2 h h'

theorem mem_flattenByLevel (m : AMap) (x : Nat) :
    x ∈ flattenByLevel m ↔ x ∈ m.map Prod.fst := by
  unfold flattenByLevel
  have hfold : ∀ (ks : List Int) (acc : List Nat),
      x ∈ ks.foldl (fun a k => (invGet (invOf m) k).foldl setAdd a) acc ↔
        x ∈ acc ∨ ∃ k ∈ ks, x ∈ invGet (invOf m) k := by
    intro ks
    induction ks with
    | nil => intro acc; simp
    | cons k ks ih =>
      intro acc
      rw [List.foldl_cons, ih, mem_foldl_setAdd]
      constructor
      · rintro ((hy | hy) | ⟨k', hk', hy⟩)
        · exact Or.inl hy
        · exact Or.inr ⟨k, List.mem_cons_self _ _, hy⟩
        · exact Or.inr ⟨k', List.mem_cons_of_mem _ hk', hy⟩
      · rintro (hy | ⟨k', hk', hy⟩)
        · exact Or.inl (Or.inl hy)
        · rcases List.mem_cons.mp hk' with rfl | hk'
          · exact Or.inl (Or.inr hy)
          · exact Or.inr ⟨k', hk', hy⟩
  rw [hfold]
  simp only [List.not_mem_nil, false_or]
  constructor
  · rintro ⟨k, _, hy⟩
    have := (mem_invGet_invOf m k x).mp hy
    exact List.mem_map.mpr ⟨(x, k), this, rfl⟩
  · intro hx
    rcases List.mem_map.mp hx with ⟨kv, hkv, hfst⟩
    refine ⟨kv.2, ?_, (mem_invGet_invOf m kv.2 x).mpr ?_⟩
    · rw [sortedLevels, List.mem_insertionSort]
      rw [mem_invKeys_invOf]
      exact ⟨kv, hkv, rfl⟩
    · have : kv = (x, kv.2) := Prod.ext hfst rfl
      exact this ▸ hkv

theorem nodup_flattenByLevel (m : AMap) : (flattenByLevel m).Nodup := by
  unfold flattenByLevel
  suffices h : ∀ (ks : List Int) (acc : List Nat), acc.Nodup →
      (ks.foldl (fun a k => (invGet (invOf m) k).foldl setAdd a)
        acc).Nodup by
    exact h _ [] (by simp)
  intro ks
  induction ks with
  | nil => intro acc h; exact h
  | cons k ks ih =>
    intro acc h
    exact ih _ (nodup_foldl_setAdd _ _ h)

theorem sortedLevels_sorted (m : AMap) :
    (sortedLevels m).Sorted (· ≤ ·) := by
  exact List.sorted_insertionSort _ _

theorem sortedLevels_nodup (m : AMap) : (sortedLevels m).Nodup := by
  unfold sortedLevels
  exact ((List.perm_insertionSort _ _).nodup_iff).mpr (invKeys_invOf_nodup m)

theorem mem_sortedLevels (m : AMap) (L : Int) :
    L ∈ sortedLevels m ↔ ∃ kv ∈ m, kv.2 = L := by
  rw [sortedLevels, List.mem_insertionSort, mem_invKeys_invOf]

theorem sorted_split {ks : List Int} (hs : ks.Sorted (· ≤ ·))
    {kx ky : Int} (hx : kx ∈ ks) (hy : ky ∈ ks) (hlt : kx < ky) :
    ∃ l1 l2, ks = l1 ++ kx :: l2 ∧ ky ∈ l2 := by
  induction ks with
  | nil => cases hx
  | cons k ks ih =>
    rw [List.sorted_cons] at hs
    by_cases hk : k = kx
    · subst hk
      have hyk : ky ∈ ks := by
        rcases List.mem_cons.mp hy with rfl | hy
        · exact absurd rfl (ne_of_gt hlt)
        · exact hy
      exact ⟨[], ks, rfl, hyk⟩
    · have hxks : kx ∈ ks := by
        rcases List.mem_cons.mp hx with rfl | hx
        · exact absurd rfl hk
        · exact hx
      have hyks : ky ∈ ks := by
        rcases List.mem_cons.mp hy with rfl | hy
        · exact absurd (hs.1 kx hxks) (not_le.mpr hlt)
        · exact hy
      rcases ih hs.2 hxks hyks with ⟨l1, l2, heq, hmem⟩
      exact ⟨k :: l1, l2, by rw [List.cons_append, heq], hmem⟩

theorem foldl_groups_eq_append (G : Int → List Nat) :
    ∀ (ks : List Int) (acc : List Nat),
      (∀ k ∈ ks, (G k).Nodup) →
      List.Pairwise (fun a b => ∀ x ∈ G a, ¬ x ∈ G b) ks →
      (∀ k ∈ ks, ∀ x ∈ G k, ¬ x ∈ acc) →
      ks.foldl (fun a k => (G k).foldl setAdd a) acc =
        acc ++ (ks.map G).flatten := by
  intro ks
  induction ks with
  | nil => intro acc _ _ _; simp
  | cons k ks ih =>
    intro acc hnd hpw hdisj
    rw [List.foldl_cons]
    rw [foldl_setAdd_eq_append _ _
      (fun x hx => hdisj k (List.mem_cons_self _ _) x hx)
      (hnd k (List.mem_cons_self _ _))]
    rw [List.pairwise_cons] at hpw
    rw [ih (acc ++ G k)
      (fun k' hk' => hnd k' (List.mem_cons_of_mem _ hk'))
      hpw.2
      (fun k' hk' x hx hmem => by
        rcases List.mem_append.mp hmem with hmem | hmem
        · exact hdisj k' (List.mem_cons_of_mem _ hk') x hx hmem
        · exact hpw.1 k' hk' x hmem hx)]
    simp

theorem invGet_invOf_nodup (m : AMap) (h : KeysNodup m) (L : Int) :
    (invGet (invOf m) L).Nodup := by
  rw [invGet_invOf]
  exact List.Nodup.sublist
    (List.Sublist.map Prod.fst (List.filter_sublist m)) h

theorem invGet_invOf_disjoint (m : AMap) (h : KeysNodup m) {k k' : Int}
    (hne : ¬ k = k') (x : Nat) (hx : x ∈ invGet (invOf m) k)
    (hx' : x ∈ invGet (invOf m) k') : False := by
  exact hne (key_unique m h ((mem_invGet_invOf m k x).mp hx)
    ((mem_invGet_invOf m k' x).mp hx'))

theorem flattenByLevel_eq_join (m : AMap) (h : KeysNodup m) :
    flattenByLevel m =
      ((sortedLevels m).map (invGet (invOf m))).flatten := by
  unfold flattenByLevel
  rw [foldl_groups_eq_append]
  · simp
  · intro k _
    exact invGet_invOf_nodup m h k
  · have hnd := sortedLevels_nodup m
    refine List.Pairwise.imp_of_mem ?_ hnd
    intro a b _ _ hab x hx hx'
    exact invGet_invOf_disjoint m h hab x hx hx'
  · intro k _ x _ hmem
    cases hmem

/-- In the flattened sequence, a project at a strictly smaller level
appears at a strictly smaller index. -/
theorem flatten_index_lt (m : AMap) (h : KeysNodup m) {x y : Nat}
    {vx vy : Int} (hx : mapGet m x = some vx) (hy : mapGet m y = some vy)
    (hlt : vx < vy) :
    List.indexOf x (flattenByLevel m) < List.indexOf y (flattenByLevel m)
    := by
  have hxg : x ∈ invGet (invOf m) vx :=
    (mem_invGet_invOf m vx x).mpr (mapGet_some_mem m x vx hx)
  have hyg : y ∈ invGet (invOf m) vy :=
    (mem_invGet_invOf m vy y).mpr (mapGet_some_mem m y vy hy)
  have hxk : vx ∈ sortedLevels m :=
    (mem_sortedLevels m vx).mpr ⟨(x, vx), mapGet_some_mem m x vx hx, rfl⟩
  have hyk : vy ∈ sortedLevels m :=
    (mem_sortedLevels m vy).mpr ⟨(y, vy), mapGet_some_mem m y vy hy, rfl⟩
  rcases sorted_split (sortedLevels_sorted m) hxk hyk hlt with
    ⟨l1, l2, heq, hyl2⟩
  have hnd : (sortedLevels m).Nodup := sortedLevels_nodup m
  rw [flattenByLevel_eq_join m h, heq]
  rw [List.map_append, List.map_cons, List.flatten_append, List.flatten_cons,
    ← List.append_assoc]
  set A := (l1.map (invGet (invOf m))).flatten ++ invGet (invOf m) vx with hA
  set B := (l2.map (invGet (invOf m))).flatten with hB
  have hxA : x ∈ A := List.mem_append.mpr (Or.inr hxg)
  have hyB : y ∈ B := by
    rw [hB]
    exact List.mem_flatten.mpr ⟨invGet (invOf m) vy,
      List.mem_map.mpr ⟨vy, hyl2, rfl⟩, hyg⟩
  have hyA : ¬ y ∈ A := by
    rw [heq] at hnd
    intro hmem
    rcases List.mem_append.mp hmem with hmem | hmem
    · rcases List.mem_flatten.mp hmem with ⟨gp, hgp, hygp⟩
      rcases List.mem_map.mp hgp with ⟨k, hkl1, rfl⟩
      have hkne : ¬ k = vy := by
        intro hk
        subst hk
        have := List.nodup_append.mp hnd
        exact this.2.2 hkl1 (List.mem_cons_of_mem _ hyl2)
      exact invGet_invOf_disjoint m h hkne y hygp hyg
    · have hvne : ¬ vx = vy := ne_of_lt hlt
      exact invGet_invOf_disjoint m h hvne y hmem hyg
  rw [List.indexOf_append_of_mem hxA, List.indexOf_append_of_not_mem hyA]
  calc List.indexOf x A < A.length := List.indexOf_lt_length.mpr hxA
    _ ≤ A.length + List.indexOf y B := Nat.le_add_right _ _

/-! ### Postconditions of the relaxation traversals -/

theorem foldUp_post (g : Graph) (ℓ : Int)
    (step : Nat → AMap → Except Err AMap)
    (hstep : ∀ c m m', step c m = .ok m' → UpPost g ℓ c m m') :
    ∀ (cs : List Nat) (m m' : AMap),
      foldSteps step cs m = .ok m' → FoldUpPost g ℓ cs m m' := by
  intro cs
  induction cs with
  | nil =>
    intro m m' h
    simp only [foldSteps] at h
    cases h
    exact ⟨fun q => Or.inl rfl, by simp, fun q hq => absurd rfl hq,
      fun h => h⟩
  | cons c cs ih =>
    intro m m' h
    simp only [foldSteps] at h
    cases hstep1 : step c m with
    | error e => rw [hstep1] at h; cases h
    | ok m₁ =>
      rw [hstep1] at h
      obtain ⟨c1, c2, c3, c4, c5⟩ := hstep c m m₁ hstep1
      obtain ⟨f1, f2, f3, f4⟩ := ih m₁ m' h
      refine ⟨?_, ?_, ?_, ?_⟩
      · intro q
        rcases f1 q with hq | ⟨v', hv', hl, ⟨c', hc', hre⟩, hmono⟩
        · rcases c1 q with hq2 | ⟨v₁, hv₁, hl₁, hre₁, hmono₁⟩
          · exact Or.inl (hq.trans hq2)
          · refine Or.inr ⟨v₁, hq.trans hv₁, hl₁, ?_, hmono₁⟩
            refine ⟨c, List.mem_cons_self _ _, ?_⟩
            rcases hre₁ with rfl | ⟨hcp, _⟩
            · exact Or.inl rfl
            · exact Or.inr hcp
        · refine Or.inr ⟨v', hv', hl,
            ⟨c', List.mem_cons_of_mem _ hc', hre⟩, ?_⟩
          intro v hv
          rcases c1 q with hq2 | ⟨v₁, hv₁, _, _, hmono₁⟩
          · exact hmono v (hq2 ▸ hv)
          · obtain ⟨hvle, hvnn⟩ := hmono₁ v hv
            obtain ⟨hv'le, _⟩ := hmono v₁ hv₁
            exact ⟨le_trans hvle hv'le, hvnn⟩
      · intro c' hc'
        rcases List.mem_cons.mp hc' with rfl | hc'
        · obtain ⟨vc, hvc, hvcl⟩ := c2
          rcases f1 c' with hq | ⟨v', hv', hl', _, hmono⟩
          · exact ⟨vc, hq.trans hvc, hvcl⟩
          · exact ⟨v', hv', hl'⟩
        · exact f2 c' hc'
      · intro q hq c' hc'
        by_cases hq1 : mapGet m' q = mapGet m₁ q
        · have hq2 : ¬ mapGet m₁ q = mapGet m q :=
            fun h2 => hq (hq1.trans h2)
          obtain ⟨vq, vc, hvq, hvc, hle⟩ := c3 q hq2 c' hc'
          rcases f1 c' with hc1 | ⟨v'', hv'', _, _, hmono⟩
          · exact ⟨vq, vc, hq1.trans hvq, hc1.trans hvc, hle⟩
          · obtain ⟨hvle, _⟩ := hmono vc hvc
            exact ⟨vq, v'', hq1.trans hvq, hv'', by omega⟩
        · exact f3 q hq1 c' hc'
      · exact fun h => f4 (c5 h)

theorem dstUp_succ (g : Graph) (fuel : Nat) (ℓ : Int) (p : Nat)
    (m : AMap) :
    dstUp g (fuel + 1) ℓ p m =
      match mapGet m p with
      | none =>
        foldSteps (fun c acc => dstUp g fuel (ℓ + 1) c acc) (g.cons p)
          (mapSet m p ℓ)
      | some e =>
        if e = 0 then
          foldSteps (fun c acc => dstUp g fuel (ℓ + 1) c acc) (g.cons p)
            (mapSet m p ℓ)
        else if e < 0 then .error (.contra (g.nameOf p))
        else if ℓ ≤ e then .ok m
        else
          foldSteps (fun c acc => dstUp g fuel (ℓ + 1) c acc) (g.cons p)
            (mapSet m p ℓ) := rfl

theorem dstUp_follow_post (g : Graph) (fuel : Nat) (ℓ : Int) (p : Nat)
    (m m' : AMap) (hℓ : 0 ≤ ℓ)
    (hstep : ∀ c mm mm', dstUp g fuel (ℓ + 1) c mm = .ok mm' →
      UpPost g (ℓ + 1) c mm mm')
    (hold : mapGet m p = none ∨
      (∃ e, mapGet m p = some e ∧ 0 ≤ e ∧ e ≤ ℓ))
    (hfold : foldSteps (fun c acc => dstUp g fuel (ℓ + 1) c acc)
      (g.cons p) (mapSet m p ℓ) = .ok m') :
    UpPost g ℓ p m m' := by
  obtain ⟨f1, f2, f3, f4⟩ :=
    foldUp_post g (ℓ + 1) _ hstep (g.cons p) (mapSet m p ℓ) m' hfold
  have hM0p : mapGet (mapSet m p ℓ) p = some ℓ := by
    rw [mapGet_mapSet]; simp
  have hM0q : ∀ q, ¬ q = p → mapGet (mapSet m p ℓ) q = mapGet m q := by
    intro q hq
    rw [mapGet_mapSet, if_neg (fun h => hq h.symm)]
  have hmono0 : ∀ v, mapGet m p = some v → v ≤ ℓ ∧ 0 ≤ v := by
    intro v hv
    rcases hold with hnone | ⟨e, he, he0, hel⟩
    · rw [hnone] at hv; cases hv
    · rw [he] at hv
      cases hv
      exact ⟨hel, he0⟩
  have hreach : ∀ q, (∃ c ∈ g.cons p, q = c ∨ ConsPlus g c q) →
      ConsPlus g p q := by
    rintro q ⟨c, hc, rfl | hcq⟩
    · exact Relation.TransGen.single hc
    · exact Relation.TransGen.head hc hcq
  have hfinal_p : ∃ vp, mapGet m' p = some vp ∧ ℓ ≤ vp := by
    rcases f1 p with hun | ⟨v', hv', hl', _, _⟩
    · exact ⟨ℓ, hun.trans hM0p, le_refl ℓ⟩
    · exact ⟨v', hv', by omega⟩
  refine ⟨?_, hfinal_p, ?_, ?_, ?_⟩
  · intro q
    by_cases hqp : q = p
    · subst hqp
      obtain ⟨vp, hvp, hvpl⟩ := hfinal_p
      refine Or.inr ⟨vp, hvp, hvpl, Or.inl rfl, ?_⟩
      intro v hv
      obtain ⟨hvl, hv0⟩ := hmono0 v hv
      exact ⟨le_trans hvl hvpl, hv0⟩
    · rcases f1 q with hun | ⟨v', hv', hl', hre, hmono⟩
      · exact Or.inl (hun.trans (hM0q q hqp))
      · refine Or.inr ⟨v', hv', by omega,
          Or.inr ⟨hreach q hre, hl'⟩, ?_⟩
        intro v hv
        exact hmono v ((hM0q q hqp) ▸ hv)
  · intro q hq c hc
    by_cases hqp : q = p
    · subst hqp
      by_cases hch : mapGet m' q = mapGet (mapSet m q ℓ) q
      · obtain ⟨vc, hvc, hvcl⟩ := f2 c hc
        exact ⟨ℓ, vc, hch.trans hM0p, hvc, hvcl⟩
      · exact f3 q hch c hc
    · have hch : ¬ mapGet m' q = mapGet (mapSet m p ℓ) q := by
        rw [hM0q q hqp]; exact hq
      exact f3 q hch c hc
  · intro _ c hc
    exact f2 c hc
  · intro h
    exact f4 (keysNodup_mapSet m p ℓ h)

theorem dstUp_succ_none (g : Graph) (fuel : Nat) (ℓ : Int) (p : Nat)
    (m : AMap) (hmp : mapGet m p = none) :
    dstUp g (fuel + 1) ℓ p m =
      foldSteps (fun c acc => dstUp g fuel (ℓ + 1) c acc) (g.cons p)
        (mapSet m p ℓ) := by
  rw [dstUp_succ, hmp]

theorem dstUp_succ_some (g : Graph) (fuel : Nat) (ℓ : Int) (p : Nat)
    (m : AMap) (e : Int) (hmp : mapGet m p = some e) :
    dstUp g (fuel + 1) ℓ p m =
      (if e = 0 then
        foldSteps (fun c acc => dstUp g fuel (ℓ + 1) c acc) (g.cons p)
          (mapSet m p ℓ)
      else if e < 0 then .error (.contra (g.nameOf p))
      else if ℓ ≤ e then .ok m
      else
        foldSteps (fun c acc => dstUp g fuel (ℓ + 1) c acc) (g.cons p)
          (mapSet m p ℓ)) := by
  rw [dstUp_succ, hmp]

theorem dstUp_post (g : Graph) :
    ∀ (fuel : Nat) (ℓ : Int) (p : Nat) (m m' : AMap), 0 ≤ ℓ →
      dstUp g fuel ℓ p m = .ok m' → UpPost g ℓ p m m' := by
  intro fuel
  induction fuel with
  | zero =>
    intro ℓ p m m' _ h
    simp [dstUp] at h
  | succ fuel ih =>
    intro ℓ p m m' hℓ h
    have hstep : ∀ c mm mm', dstUp g fuel (ℓ + 1) c mm = .ok mm' →
        UpPost g (ℓ + 1) c mm mm' :=
      fun c mm mm' hh => ih (ℓ + 1) c mm mm' (by omega) hh
    cases hmp : mapGet m p with
    | none =>
      rw [dstUp_succ_none g fuel ℓ p m hmp] at h
      exact dstUp_follow_post g fuel ℓ p m m' hℓ hstep (Or.inl hmp) h
    | some e =>
      rw [dstUp_succ_some g fuel ℓ p m e hmp] at h
      by_cases he0 : e = 0
      · rw [if_pos he0] at h
        subst he0
        exact dstUp_follow_post g fuel ℓ p m m' hℓ hstep
          (Or.inr ⟨0, hmp, le_refl 0, hℓ⟩) h
      · rw [if_neg he0] at h
        by_cases heneg : e < 0
        · rw [if_pos heneg] at h
          cases h
        · rw [if_neg heneg] at h
          by_cases hle : ℓ ≤ e
          · rw [if_pos hle] at h
            cases h
            refine ⟨fun q => Or.inl rfl, ⟨e, hmp, hle⟩,
              fun q hq => absurd rfl hq, ?_, fun hnd => hnd⟩
            intro hcond
            exfalso
            rcases hcond with hnone | hzero | ⟨e', he', he'0, he'l⟩
            · rw [hmp] at hnone; cases hnone
            · rw [hmp] at hzero
              cases hzero
              exact he0 rfl
            · rw [hmp] at he'
              cases he'
              omega
          · rw [if_neg hle] at h
            exact dstUp_follow_post g fuel ℓ p m m' hℓ hstep
              (Or.inr ⟨e, hmp, by omega, by omega⟩) h

theorem foldDown_post (g : Graph) (ℓ : Int)
    (step : Nat → AMap → Except Err AMap)
    (hstep : ∀ c m m', step c m = .ok m' → DownPost g ℓ c m m') :
    ∀ (cs : List Nat) (m m' : AMap),
      foldSteps step cs m = .ok m' → FoldDownPost g ℓ cs m m' := by
  intro cs
  induction cs with
  | nil =>
    intro m m' h
    simp only [foldSteps] at h
    cases h
    exact ⟨fun q => Or.inl rfl, by simp, fun q hq => absurd rfl hq,
      fun h => h⟩
  | cons c cs ih =>
    intro m m' h
    simp only [foldSteps] at h
    cases hstep1 : step c m with
    | error e => rw [hstep1] at h; cases h
    | ok m₁ =>
      rw [hstep1] at h
      obtain ⟨c1, c2, c3, c4, c5⟩ := hstep c m m₁ hstep1
      obtain ⟨f1, f2, f3, f4⟩ := ih m₁ m' h
      refine ⟨?_, ?_, ?_, ?_⟩
      · intro q
        rcases f1 q with hq | ⟨v', hv', hl, ⟨c', hc', hre⟩, hmono⟩
        · rcases c1 q with hq2 | ⟨v₁, hv₁, hl₁, hre₁, hmono₁⟩
          · exact Or.inl (hq.trans hq2)
          · refine Or.inr ⟨v₁, hq.trans hv₁, hl₁, ?_, hmono₁⟩
            refine ⟨c, List.mem_cons_self _ _, ?_⟩
            rcases hre₁ with rfl | ⟨hcp, _⟩
            · exact Or.inl rfl
            · exact Or.inr hcp
        · refine Or.inr ⟨v', hv', hl,
            ⟨c', List.mem_cons_of_mem _ hc', hre⟩, ?_⟩
          intro v hv
          rcases c1 q with hq2 | ⟨v₁, hv₁, _, _, hmono₁⟩
          · exact hmono v (hq2 ▸ hv)
          · obtain ⟨hvle, hvnn⟩ := hmono₁ v hv
            obtain ⟨hv'le, _⟩ := hmono v₁ hv₁
            exact ⟨le_trans hv'le hvle, hvnn⟩
      · intro c' hc'
        rcases List.mem_cons.mp hc' with rfl | hc'
        · obtain ⟨vc, hvc, hvcl⟩ := c2
          rcases f1 c' with hq | ⟨v', hv', hl', _, hmono⟩
          · exact ⟨vc, hq.trans hvc, hvcl⟩
          · exact ⟨v', hv', hl'⟩
        · exact f2 c' hc'
      · intro q hq c' hc'
        by_cases hq1 : mapGet m' q = mapGet m₁ q
        · have hq2 : ¬ mapGet m₁ q = mapGet m q :=
            fun h2 => hq (hq1.trans h2)
          obtain ⟨vq, vc, hvq, hvc, hle⟩ := c3 q hq2 c' hc'
          rcases f1 c' with hc1 | ⟨v'', hv'', _, _, hmono⟩
          · exact ⟨vq, vc, hq1.trans hvq, hc1.trans hvc, hle⟩
          · obtain ⟨hvle, _⟩ := hmono vc hvc
            exact ⟨vq, v'', hq1.trans hvq, hv'', by omega⟩
        · exact f3 q hq1 c' hc'
      · exact fun h => f4 (c5 h)

theorem dstDown_succ (g : Graph) (fuel : Nat) (ℓ : Int) (p : Nat)
    (m : AMap) :
    dstDown g (fuel + 1) ℓ p m =
      match mapGet m p with
      | none =>
        foldSteps (fun c acc => dstDown g fuel (ℓ - 1) c acc) (g.deps p)
          (mapSet m p ℓ)
      | some e =>
        if e = 0 then
          foldSteps (fun c acc => dstDown g fuel (ℓ - 1) c acc) (g.deps p)
            (mapSet m p ℓ)
        else if 0 < e then .error (.contra (g.nameOf p))
        else if e ≤ ℓ then .ok m
        else
          foldSteps (fun c acc => dstDown g fuel (ℓ - 1) c acc) (g.deps p)
            (mapSet m p ℓ) := rfl

theorem dstDown_succ_none (g : Graph) (fuel : Nat) (ℓ : Int) (p : Nat)
    (m : AMap) (hmp : mapGet m p = none) :
    dstDown g (fuel + 1) ℓ p m =
      foldSteps (fun c acc => dstDown g fuel (ℓ - 1) c acc) (g.deps p)
        (mapSet m p ℓ) := by
  rw [dstDown_succ, hmp]

theorem dstDown_succ_some (g : Graph) (fuel : Nat) (ℓ : Int) (p : Nat)
    (m : AMap) (e : Int) (hmp : mapGet m p = some e) :
    dstDown g (fuel + 1) ℓ p m =
      (if e = 0 then
        foldSteps (fun c acc => dstDown g fuel (ℓ - 1) c acc) (g.deps p)
          (mapSet m p ℓ)
      else if 0 < e then .error (.contra (g.nameOf p))
      else if e ≤ ℓ then .ok m
      else
        foldSteps (fun c acc => dstDown g fuel (ℓ - 1) c acc) (g.deps p)
          (mapSet m p ℓ)) := by
  rw [dstDown_succ, hmp]

theorem dstDown_follow_post (g : Graph) (fuel : Nat) (ℓ : Int) (p : Nat)
    (m m' : AMap) (hℓ : ℓ ≤ 0)
    (hstep : ∀ c mm mm', dstDown g fuel (ℓ - 1) c mm = .ok mm' →
      DownPost g (ℓ - 1) c mm mm')
    (hold : mapGet m p = none ∨
      (∃ e, mapGet m p = some e ∧ e ≤ 0 ∧ ℓ ≤ e))
    (hfold : foldSteps (fun c acc => dstDown g fuel (ℓ - 1) c acc)
      (g.deps p) (mapSet m p ℓ) = .ok m') :
    DownPost g ℓ p m m' := by
  obtain ⟨f1, f2, f3, f4⟩ :=
    foldDown_post g (ℓ - 1) _ hstep (g.deps p) (mapSet m p ℓ) m' hfold
  have hM0p : mapGet (mapSet m p ℓ) p = some ℓ := by
    rw [mapGet_mapSet]; simp
  have hM0q : ∀ q, ¬ q = p → mapGet (mapSet m p ℓ) q = mapGet m q := by
    intro q hq
    rw [mapGet_mapSet, if_neg (fun h => hq h.symm)]
  have hmono0 : ∀ v, mapGet m p = some v → ℓ ≤ v ∧ v ≤ 0 := by
    intro v hv
    rcases hold with hnone | ⟨e, he, he0, hel⟩
    · rw [hnone] at hv; cases hv
    · rw [he] at hv
      cases hv
      exact ⟨hel, he0⟩
  have hreach : ∀ q, (∃ c ∈ g.deps p, q = c ∨ DepPlus g c q) →
      DepPlus g p q := by
    rintro q ⟨c, hc, rfl | hcq⟩
    · exact Relation.TransGen.single hc
    · exact Relation.TransGen.head hc hcq
  have hfinal_p : ∃ vp, mapGet m' p = some vp ∧ vp ≤ ℓ := by
    rcases f1 p with hun | ⟨v', hv', hl', _, _⟩
    · exact ⟨ℓ, hun.trans hM0p, le_refl ℓ⟩
    · exact ⟨v', hv', by omega⟩
  refine ⟨?_, hfinal_p, ?_, ?_, ?_⟩
  · intro q
    by_cases hqp : q = p
    · subst hqp
      obtain ⟨vp, hvp, hvpl⟩ := hfinal_p
      refine Or.inr ⟨vp, hvp, hvpl, Or.inl rfl, ?_⟩
      intro v hv
      obtain ⟨hvl, hv0⟩ := hmono0 v hv
      exact ⟨le_trans hvpl hvl, hv0⟩
    · rcases f1 q with hun | ⟨v', hv', hl', hre, hmono⟩
      · exact Or.inl (hun.trans (hM0q q hqp))
      · refine Or.inr ⟨v', hv', by omega,
          Or.inr ⟨hreach q hre, hl'⟩, ?_⟩
        intro v hv
        exact hmono v ((hM0q q hqp) ▸ hv)
  · intro q hq c hc
    by_cases hqp : q = p
    · subst hqp
      by_cases hch : mapGet m' q = mapGet (mapSet m q ℓ) q
      · obtain ⟨vc, hvc, hvcl⟩ := f2 c hc
        exact ⟨ℓ, vc, hch.trans hM0p, hvc, by omega⟩
      · exact f3 q hch c hc
    · have hch : ¬ mapGet m' q = mapGet (mapSet m p ℓ) q := by
        rw [hM0q q hqp]; exact hq
      exact f3 q hch c hc
  · intro _ c hc
    obtain ⟨vc, hvc, hvcl⟩ := f2 c hc
    exact ⟨vc, hvc, hvcl⟩
  · intro h
    exact f4 (keysNodup_mapSet m p ℓ h)

theorem dstDown_post (g : Graph) :
    ∀ (fuel : Nat) (ℓ : Int) (p : Nat) (m m' : AMap), ℓ ≤ 0 →
      dstDown g fuel ℓ p m = .ok m' → DownPost g ℓ p m m' := by
  intro fuel
  induction fuel with
  | zero =>
    intro ℓ p m m' _ h
    simp [dstDown] at h
  | succ fuel ih =>
    intro ℓ p m m' hℓ h
    have hstep : ∀ c mm mm', dstDown g fuel (ℓ - 1) c mm = .ok mm' →
        DownPost g (ℓ - 1) c mm mm' :=
      fun c mm mm' hh => ih (ℓ - 1) c mm mm' (by omega) hh
    cases hmp : mapGet m p with
    | none =>
      rw [dstDown_succ_none g fuel ℓ p m hmp] at h
      exact dstDown_follow_post g fuel ℓ p m m' hℓ hstep (Or.inl hmp) h
    | some e =>
      rw [dstDown_succ_some g fuel ℓ p m e hmp] at h
      by_cases he0 : e = 0
      · rw [if_pos he0] at h
        subst he0
        exact dstDown_follow_post g fuel ℓ p m m' hℓ hstep
          (Or.inr ⟨0, hmp, le_refl 0, hℓ⟩) h
      · rw [if_neg he0] at h
        by_cases hepos : 0 < e
        · rw [if_pos hepos] at h
          cases h
        · rw [if_neg hepos] at h
          by_cases hle : e ≤ ℓ
          · rw [if_pos hle] at h
            cases h
            refine ⟨fun q => Or.inl rfl, ⟨e, hmp, hle⟩,
              fun q hq => absurd rfl hq, ?_, fun hnd => hnd⟩
            intro hcond
            exfalso
            rcases hcond with hnone | hzero | ⟨e', he', he'0, he'l⟩
            · rw [hmp] at hnone; cases hnone
            · rw [hmp] at hzero
              cases hzero
              exact he0 rfl
            · rw [hmp] at he'
              cases he'
              omega
          · rw [if_neg hle] at h
            exact dstDown_follow_post g fuel ℓ p m m' hℓ hstep
              (Or.inr ⟨e, hmp, by omega, by omega⟩) h

/-! ### From traversal postconditions to facts about `order` -/

theorem mapGet_m0 (center q : Nat) :
    mapGet (mapSet [] center 0) q =
      if center = q then some 0 else none := by
  rw [mapGet_mapSet]
  by_cases h : center = q <;> simp [h, mapGet]

theorem keysNodup_m0 (center : Nat) : KeysNodup (mapSet [] center 0) :=
  keysNodup_mapSet [] center 0 (by unfold KeysNodup; simp)

theorem order_ok_elim {g : Graph} {id : String} {i a b : Bool} {f : Nat}
    {r : List Nat} (h : order g id i a b f = .ok r) :
    ∃ center m1 m2,
      g.find id = some center ∧
      (if a then dstUp g f 0 center (mapSet [] center 0)
        else .ok (mapSet [] center 0)) = .ok m1 ∧
      (if b then dstDown g f 0 center m1 else .ok m1) = .ok m2 ∧
      r = flattenByLevel (if i then m2 else mapDelete m2 center) := by
  unfold order at h
  cases hfind : g.find id with
  | none => simp [hfind] at h
  | some center =>
    simp only [hfind] at h
    cases h1 : (if a then dstUp g f 0 center (mapSet [] center 0)
        else .ok (mapSet [] center 0)) with
    | error e => simp only [h1] at h; cases h
    | ok m1 =>
      simp only [h1] at h
      cases h2 : (if b then dstDown g f 0 center m1 else .ok m1) with
      | error e => simp only [h2] at h; cases h
      | ok m2 =>
        simp only [h2] at h
        cases h
        exact ⟨center, m1, m2, rfl, h1, h2, rfl⟩

theorem upPhase_facts (g : Graph) (center : Nat) (a : Bool) (f : Nat)
    (m1 : AMap)
    (h : (if a then dstUp g f 0 center (mapSet [] center 0)
      else .ok (mapSet [] center 0)) = .ok m1) :
    MidFacts g a center m1 := by
  have hm0 := mapGet_m0 center
  cases a with
  | false =>
    rw [if_neg (by simp)] at h
    cases h
    refine ⟨keysNodup_m0 center, ⟨0, by rw [hm0]; simp, le_refl 0⟩,
      ?_, ?_, ?_, ?_, ?_⟩
    · intro q v hv
      rw [hm0] at hv
      by_cases hq : center = q
      · rw [if_pos hq] at hv; cases hv; exact le_refl 0
      · rw [if_neg hq] at hv; cases hv
    · intro q v hv
      rw [hm0] at hv
      by_cases hq : center = q
      · exact Or.inl hq.symm
      · rw [if_neg hq] at hv; cases hv
    · intro q v hv h1
      rw [hm0] at hv
      by_cases hq : center = q
      · rw [if_pos hq] at hv; cases hv; omega
      · rw [if_neg hq] at hv; cases hv
    · intro ha; cases ha
    · intro ha; cases ha
  | true =>
    rw [if_pos rfl] at h
    obtain ⟨u1, u2, u3, u4, u5⟩ :=
      dstUp_post g f 0 center (mapSet [] center 0) m1 (le_refl 0) h
    have hchanged : ∀ q v, mapGet m1 q = some v → 1 ≤ v →
        ¬ mapGet m1 q = mapGet (mapSet [] center 0) q := by
      intro q v hv h1 heq
      rw [hm0] at heq
      by_cases hq : center = q
      · rw [if_pos hq, hv] at heq
        cases heq; omega
      · rw [if_neg hq, hv] at heq; cases heq
    have hM1e : ∀ q v, mapGet m1 q = some v → 1 ≤ v →
        ∀ c ∈ g.cons q, ∃ vc, mapGet m1 c = some vc ∧ v + 1 ≤ vc := by
      intro q v hv h1 c hc
      obtain ⟨vq, vc, hvq, hvc, hle⟩ :=
        u3 q (hchanged q v hv h1) c hc
      rw [hv] at hvq
      cases hvq
      exact ⟨vc, hvc, hle⟩
    have hM1f : ∀ c ∈ g.cons center,
        ∃ vc, mapGet m1 c = some vc ∧ 1 ≤ vc := by
      intro c hc
      have := u4 (Or.inr (Or.inl (by rw [hm0]; simp))) c hc
      simpa using this
    refine ⟨u5 (keysNodup_m0 center),
      (by obtain ⟨vp, hvp, hl⟩ := u2; exact ⟨vp, hvp, hl⟩),
      ?_, ?_, hM1e, fun _ => hM1f, ?_⟩
    · intro q v hv
      rcases u1 q with hun | ⟨v', hv', hl', _, _⟩
      · rw [hun, hm0] at hv
        by_cases hq : center = q
        · rw [if_pos hq] at hv; cases hv; exact le_refl 0
        · rw [if_neg hq] at hv; cases hv
      · rw [hv] at hv'; cases hv'; exact hl'
    · intro q v hv
      rcases u1 q with hun | ⟨v', hv', _, hre, _⟩
      · rw [hun, hm0] at hv
        by_cases hq : center = q
        · exact Or.inl hq.symm
        · rw [if_neg hq] at hv; cases hv
      · rw [hv] at hv'
        cases hv'
        rcases hre with rfl | ⟨hcp, hl1⟩
        · exact Or.inl rfl
        · exact Or.inr ⟨rfl, hcp, by omega⟩
    · intro _ q hq
      refine Relation.TransGen.rec ?_ ?_ hq
      · intro c hc
        exact hM1f c hc
      · intro b c _ hbc ih
        obtain ⟨v, hv, h1⟩ := ih
        obtain ⟨vc, hvc, hle⟩ := hM1e b v hv h1 c hbc
        exact ⟨vc, hvc, by omega⟩

theorem downPhase_facts (g : Graph) (center : Nat) (a b : Bool) (f : Nat)
    (m1 m2 : AMap) (hM : MidFacts g a center m1)
    (h : (if b then dstDown g f 0 center m1 else .ok m1) = .ok m2) :
    FinalFacts g a b center m2 := by
  obtain ⟨M1a, M1b, M1c, M1d, M1e, M1f, M1g⟩ := hM
  cases b with
  | false =>
    rw [if_neg (by simp)] at h
    cases h
    refine ⟨M1a, ?_, ?_, M1e, M1f, ?_, ?_, M1g, ?_⟩
    · obtain ⟨v, hv, _⟩ := M1b
      exact ⟨v, hv⟩
    · intro q v hv
      rcases M1d q v hv with hc | ⟨ha, hcp, h1⟩
      · exact Or.inl hc
      · exact Or.inr (Or.inl ⟨ha, hcp, h1⟩)
    · intro q v hv hneg
      have := M1c q v hv
      omega
    · intro hb; cases hb
    · intro hb; cases hb
  | true =>
    rw [if_pos rfl] at h
    have hc0 : mapGet m1 center = some 0 := by
      obtain ⟨v, hv, hv0⟩ := M1b
      rcases eq_or_lt_of_le hv0 with heq | hlt
      · rw [← heq] at hv; exact hv
      · exfalso
        cases f with
        | zero => simp [dstDown] at h
        | succ f =>
          rw [dstDown_succ_some g f 0 center m1 v hv] at h
          rw [if_neg (by omega), if_pos hlt] at h
          cases h
    obtain ⟨d1, d2, d3, d4, d5⟩ :=
      dstDown_post g f 0 center m1 m2 (le_refl 0) h
    have hpres : ∀ q v, mapGet m1 q = some v → 1 ≤ v →
        mapGet m2 q = some v := by
      intro q v hv h1
      rcases d1 q with hun | ⟨v', _, _, _, hmono⟩
      · rw [hun]; exact hv
      · obtain ⟨_, hv0⟩ := hmono v hv
        omega
    have hpres' : ∀ q v, mapGet m2 q = some v → 1 ≤ v →
        mapGet m1 q = some v := by
      intro q v hv h1
      rcases d1 q with hun | ⟨v', hv', hl', _, _⟩
      · rw [← hun]; exact hv
      · rw [hv] at hv'
        cases hv'
        omega
    have hP6 : ∀ q v, mapGet m2 q = some v → v ≤ -1 →
        ∀ d ∈ g.deps q, ∃ vd, mapGet m2 d = some vd ∧ vd + 1 ≤ v := by
      intro q v hv hneg d hd
      have hch : ¬ mapGet m2 q = mapGet m1 q := by
        intro heq
        have := M1c q v (heq ▸ hv)
        omega
      obtain ⟨vq, vd, hvq, hvd, hle⟩ := d3 q hch d hd
      rw [hv] at hvq
      cases hvq
      exact ⟨vd, hvd, hle⟩
    have hP7 : ∀ d ∈ g.deps center,
        ∃ vd, mapGet m2 d = some vd ∧ vd ≤ -1 := by
      intro d hd
      have := d4 (Or.inr (Or.inl hc0)) d hd
      obtain ⟨vd, hvd, hle⟩ := this
      exact ⟨vd, hvd, by omega⟩
    refine ⟨d5 M1a, ?_, ?_, ?_, ?_, hP6, fun _ => hP7, ?_, ?_⟩
    · obtain ⟨v, hv, _⟩ := d2
      exact ⟨v, hv⟩
    · intro q v hv
      rcases d1 q with hun | ⟨v', hv', hl', hre, _⟩
      · rcases M1d q v (hun ▸ hv) with hc | ⟨ha, hcp, h1⟩
        · exact Or.inl hc
        · exact Or.inr (Or.inl ⟨ha, hcp, h1⟩)
      · rw [hv] at hv'
        cases hv'
        rcases hre with rfl | ⟨hdp, hneg⟩
        · exact Or.inl rfl
        · exact Or.inr (Or.inr ⟨rfl, hdp, by omega⟩)
    · intro q v hv h1 c hc
      obtain ⟨vc, hvc, hle⟩ := M1e q v (hpres' q v hv h1) h1 c hc
      exact ⟨vc, hpres c vc hvc (by omega), hle⟩
    · intro ha c hc
      obtain ⟨vc, hvc, h1⟩ := M1f ha c hc
      exact ⟨vc, hpres c vc hvc h1, h1⟩
    · intro ha q hq
      obtain ⟨v, hv, h1⟩ := M1g ha q hq
      exact ⟨v, hpres q v hv h1, h1⟩
    · intro _ q hq
      refine Relation.TransGen.rec ?_ ?_ hq
      · intro d hd
        exact hP7 d hd
      · intro x y _ hxy ih
        obtain ⟨v, hv, hneg⟩ := ih
        obtain ⟨vd, hvd, hle⟩ := hP6 x v hv hneg y hxy
        exact ⟨vd, hvd, by omega⟩

theorem order_ok_final {g : Graph} {id : String} {i a b : Bool}
    {f : Nat} {r : List Nat} (h : order g id i a b f = .ok r) :
    ∃ center m2, g.find id = some center ∧
      r = flattenByLevel (if i then m2 else mapDelete m2 center) ∧
      FinalFacts g a b center m2 := by
  obtain ⟨center, m1, m2, hfind, h1, h2, hr⟩ := order_ok_elim h
  exact ⟨center, m2, hfind, hr,
    downPhase_facts g center a b f m1 m2 (upPhase_facts g center a f m1 h1)
      h2⟩

theorem keysNodup_mapDelete (m : AMap) (p : Nat) (h : KeysNodup m) :
    KeysNodup (mapDelete m p) := by
  unfold KeysNodup at h ⊢
  unfold mapDelete
  exact List.Nodup.sublist
    (List.Sublist.map Prod.fst (List.filter_sublist m)) h

theorem claim1_core (g : Graph) (a b : Bool) (center : Nat) (m2 : AMap)
    (F : FinalFacts g a b center m2) {d c : Nat} {vd vc : Int}
    (hdc : d ∈ g.deps c) (hcd : c ∈ g.cons d) (hne : ¬ d = c)
    (hvd : mapGet m2 d = some vd) (hvc : mapGet m2 c = some vc) :
    vd < vc := by
  obtain ⟨F1, F2, F3, F4, F5, F6, F7, F8, F9⟩ := F
  by_cases h1 : 1 ≤ vd
  · obtain ⟨vc', hvc', hle⟩ := F4 d vd hvd h1 c hcd
    rw [hvc] at hvc'
    cases hvc'
    omega
  · by_cases hneg : vd ≤ -1
    · by_cases hcneg : vc ≤ -1
      · obtain ⟨vd', hvd', hle⟩ := F6 c vc hvc hcneg d hdc
        rw [hvd] at hvd'
        cases hvd'
        omega
      · omega
    · have hvd0 : vd = 0 := by omega
      have hdcenter : d = center := by
        rcases F3 d vd hvd with hcen | ⟨_, _, hge⟩ | ⟨_, _, hle⟩
        · exact hcen
        · omega
        · omega
      by_cases ha : a = true
      · obtain ⟨vc', hvc', hge⟩ := F5 ha c (hdcenter ▸ hcd)
        rw [hvc] at hvc'
        cases hvc'
        omega
      · rcases F3 c vc hvc with hcen | ⟨ha', _, _⟩ | ⟨_, _, hcneg⟩
        · exact absurd (hdcenter.trans hcen.symm) hne
        · exact absurd ha' ha
        · obtain ⟨vd', hvd', hle⟩ := F6 c vc hvc hcneg d hdc
          rw [hvd] at hvd'
          cases hvd'
          omega

/-- C1, amended to what the code guarantees: the topological-validity
property holds for the sequences produced by `order` — for every edge
`d → c` (`d` a dependency of `c`, `c` a consumer of `d`) between two
distinct projects whose endpoints both occur in the result, the
dependency's index is strictly smaller.  (The counterexample shows the
property is false for `orderMultiple`, and false for self-edges.) -/
theorem claim1_amended (g : Graph) (id : String) (i a b : Bool)
    (f : Nat) (r : List Nat) (d c : Nat)
    (h : order g id i a b f = .ok r)
    (hdc : d ∈ g.deps c) (hcd : c ∈ g.cons d) (hne : ¬ d = c)
    (hdr : d ∈ r) (hcr : c ∈ r) :
    List.indexOf d r < List.indexOf c r := by
  obtain ⟨center, m2, hfind, hr, F⟩ := order_ok_final h
  have hnd2 : KeysNodup m2 := F.1
  set m3 := if i then m2 else mapDelete m2 center with hm3
  have hnd3 : KeysNodup m3 := by
    rw [hm3]
    cases i with
    | false => simpa using keysNodup_mapDelete m2 center hnd2
    | true => simpa using hnd2
  have hmemget : ∀ x, x ∈ r → ∃ v, mapGet m3 x = some v := by
    intro x hx
    rw [hr] at hx
    have hk := (mem_flattenByLevel m3 x).mp hx
    cases hget : mapGet m3 x with
    | none => exact absurd hk ((mapGet_eq_none_iff m3 x).mp hget)
    | some v => exact ⟨v, rfl⟩
  obtain ⟨vd, hvd3⟩ := hmemget d hdr
  obtain ⟨vc, hvc3⟩ := hmemget c hcr
  have hm3to2 : ∀ x v, mapGet m3 x = some v → mapGet m2 x = some v := by
    intro x v hx
    rw [hm3] at hx
    cases i with
    | false =>
      rw [if_neg (by simp), mapGet_mapDelete] at hx
      by_cases hc : center = x
      · rw [if_pos hc] at hx; cases hx
      · rwa [if_neg hc] at hx
    | true => simpa using hx
  have hlt : vd < vc :=
    claim1_core g a b center m2 F hdc hcd hne
      (hm3to2 d vd hvd3) (hm3to2 c vc hvc3)
  rw [hr]
  exact flatten_index_lt m3 hnd3 hvd3 hvc3 hlt

/-- C3, amended to what the code computes: with a resolvable anchor, the
elements of a successful `order` result are exactly the anchor itself
(when `including` is set) together with the projects reachable from the
anchor along one or more consumer edges (when `includeAncestors` is set)
or along one or more dependency edges (when `includeDescendants` is
set) — the monotone closure, not the weakly-connected component. -/
theorem claim3_amended (g : Graph) (id : String) (i a b : Bool)
    (f : Nat) (r : List Nat) (center : Nat)
    (h : order g id i a b f = .ok r) (hfind : g.find id = some center)
    (x : Nat) :
    x ∈ r ↔ ((i = true ∧ x = center)
      ∨ (¬ x = center ∧ a = true ∧ ConsPlus g center x)
      ∨ (¬ x = center ∧ b = true ∧ DepPlus g center x)) := by
  obtain ⟨center', m2, hfind', hr, F⟩ := order_ok_final h
  rw [hfind] at hfind'
  cases hfind'
  obtain ⟨F1, F2, F3, F4, F5, F6, F7, F8, F9⟩ := F
  set m3 := if i then m2 else mapDelete m2 center with hm3
  have hmem3 : ∀ y, y ∈ r ↔ ∃ v, mapGet m3 y = some v := by
    intro y
    rw [hr, mem_flattenByLevel]
    constructor
    · intro hk
      cases hget : mapGet m3 y with
      | none => exact absurd hk ((mapGet_eq_none_iff m3 y).mp hget)
      | some v => exact ⟨v, rfl⟩
    · rintro ⟨v, hv⟩
      by_contra hk
      rw [(mapGet_eq_none_iff m3 y).mpr hk] at hv
      cases hv
  have hm3get : ∀ y, mapGet m3 y =
      (if ¬ i = true ∧ y = center then none else mapGet m2 y) := by
    intro y
    rw [hm3]
    cases i with
    | false =>
      rw [if_neg (by simp), mapGet_mapDelete]
      by_cases hc : center = y
      · rw [if_pos hc, if_pos ⟨by simp, hc.symm⟩]
      · rw [if_neg hc, if_neg (fun hh => hc hh.2.symm)]
    | true =>
      rw [if_pos rfl, if_neg (fun hh => by simpa using hh.1)]
  rw [hmem3]
  constructor
  · rintro ⟨v, hv⟩
    rw [hm3get] at hv
    by_cases hic : ¬ i = true ∧ x = center
    · rw [if_pos hic] at hv; cases hv
    · rw [if_neg hic] at hv
      rcases F3 x v hv with hcen | ⟨ha, hcp, _⟩ | ⟨hb, hdp, _⟩
      · left
        refine ⟨?_, hcen⟩
        by_contra hi
        exact hic ⟨hi, hcen⟩
      · by_cases hxc : x = center
        · left
          refine ⟨?_, hxc⟩
          by_contra hi
          exact hic ⟨hi, hxc⟩
        · exact Or.inr (Or.inl ⟨hxc, ha, hcp⟩)
      · by_cases hxc : x = center
        · left
          refine ⟨?_, hxc⟩
          by_contra hi
          exact hic ⟨hi, hxc⟩
        · exact Or.inr (Or.inr ⟨hxc, hb, hdp⟩)
  · rintro (⟨hi, rfl⟩ | ⟨hne, ha, hcp⟩ | ⟨hne, hb, hdp⟩)
    · obtain ⟨v, hv⟩ := F2
      refine ⟨v, ?_⟩
      rw [hm3get, if_neg (fun hh => by simpa [hi] using hh.1)]
      exact hv
    · obtain ⟨v, hv, _⟩ := F8 ha x hcp
      refine ⟨v, ?_⟩
      rw [hm3get, if_neg (fun hh => hne hh.2)]
      exact hv
    · obtain ⟨v, hv, _⟩ := F9 hb x hdp
      refine ⟨v, ?_⟩
      rw [hm3get, if_neg (fun hh => hne hh.2)]
      exact hv

theorem foldSteps_error_elim {step : Nat → AMap → Except Err AMap}
    {cs : List Nat} {m : AMap} {E : Err}
    (h : foldSteps step cs m = .error E) :
    ∃ cs₁ c cs₂ mm, cs = cs₁ ++ c :: cs₂ ∧
      foldSteps step cs₁ m = .ok mm ∧ step c mm = .error E := by
  induction cs generalizing m with
  | nil => simp [foldSteps] at h
  | cons c cs ih =>
    simp only [foldSteps] at h
    cases hs : step c m with
    | error e =>
      rw [hs] at h
      cases h
      exact ⟨[], c, cs, m, rfl, rfl, hs⟩
    | ok m₁ =>
      rw [hs] at h
      obtain ⟨cs₁, c', cs₂, mm, heq, hok, herr⟩ := ih h
      refine ⟨c :: cs₁, c', cs₂, mm, by rw [heq, List.cons_append], ?_, herr⟩
      simp only [foldSteps, hs]
      exact hok

theorem dstUp_nonneg_no_contra (g : Graph) :
    ∀ (fuel : Nat) (ℓ : Int) (p : Nat) (m : AMap) (nm : String),
      0 ≤ ℓ → (∀ q v, mapGet m q = some v → 0 ≤ v) →
      ¬ dstUp g fuel ℓ p m = .error (.contra nm) := by
  intro fuel
  induction fuel with
  | zero =>
    intro ℓ p m nm _ _ h
    simp [dstUp] at h
  | succ fuel ih =>
    intro ℓ p m nm hℓ hnn h
    have hfold : ∀ mstart,
        (∀ q v, mapGet mstart q = some v → 0 ≤ v) →
        ¬ foldSteps (fun c acc => dstUp g fuel (ℓ + 1) c acc) (g.cons p)
          mstart = .error (.contra nm) := by
      intro mstart hstart hferr
      obtain ⟨cs₁, c, cs₂, mm, heq, hok, herr⟩ :=
        foldSteps_error_elim hferr
      have hpost := foldUp_post g (ℓ + 1) _
        (fun c mm mm' hh => dstUp_post g fuel (ℓ + 1) c mm mm'
          (by omega) hh) cs₁ mstart mm hok
      have hmm : ∀ q v, mapGet mm q = some v → 0 ≤ v := by
        intro q v hv
        rcases hpost.1 q with hun | ⟨v', hv', hl', _, _⟩
        · exact hstart q v (hun ▸ hv)
        · rw [hv] at hv'
          cases hv'
          omega
      exact ih (ℓ + 1) c mm nm (by omega) hmm herr
    have hsetnn : ∀ q v, mapGet (mapSet m p ℓ) q = some v → 0 ≤ v := by
      intro q v hv
      rw [mapGet_mapSet] at hv
      by_cases hpq : p = q
      · rw [if_pos hpq] at hv; cases hv; exact hℓ
      · rw [if_neg hpq] at hv; exact hnn q v hv
    cases hmp : mapGet m p with
    | none =>
      rw [dstUp_succ_none g fuel ℓ p m hmp] at h
      exact hfold _ hsetnn h
    | some e =>
      rw [dstUp_succ_some g fuel ℓ p m e hmp] at h
      by_cases he0 : e = 0
      · rw [if_pos he0] at h
        exact hfold _ hsetnn h
      · rw [if_neg he0] at h
        by_cases heneg : e < 0
        · have := hnn p e hmp
          omega
        · rw [if_neg heneg] at h
          by_cases hle : ℓ ≤ e
          · rw [if_pos hle] at h
            cases h
          · rw [if_neg hle] at h
            exact hfold _ hsetnn h

theorem dstDown_contra_names (g : Graph) :
    ∀ (fuel : Nat) (ℓ : Int) (p : Nat) (m : AMap) (nm : String),
      ℓ ≤ 0 → dstDown g fuel ℓ p m = .error (.contra nm) →
      ∃ q, nm = g.nameOf q ∧ DepStar g p q ∧
        ∃ v, mapGet m q = some v ∧ 0 < v := by
  intro fuel
  induction fuel with
  | zero =>
    intro ℓ p m nm _ h
    simp [dstDown] at h
  | succ fuel ih =>
    intro ℓ p m nm hℓ h
    have hfold : ∀ mstart,
        (∀ q v, mapGet mstart q = some v → 0 < v →
          ∃ vm, mapGet m q = some vm ∧ 0 < vm ∧ vm = v) →
        foldSteps (fun c acc => dstDown g fuel (ℓ - 1) c acc) (g.deps p)
          mstart = .error (.contra nm) →
        ∃ q, nm = g.nameOf q ∧ DepStar g p q ∧
          ∃ v, mapGet m q = some v ∧ 0 < v := by
      intro mstart hstart hferr
      obtain ⟨cs₁, c, cs₂, mm, heq, hok, herr⟩ :=
        foldSteps_error_elim hferr
      obtain ⟨q, hnm, hstar, v, hv, hpos⟩ :=
        ih (ℓ - 1) c mm nm (by omega) herr
      have hpost := foldDown_post g (ℓ - 1) _
        (fun c mm mm' hh => dstDown_post g fuel (ℓ - 1) c mm mm'
          (by omega) hh) cs₁ mstart mm hok
      have hstartv : mapGet mstart q = some v := by
        rcases hpost.1 q with hun | ⟨v', hv', hl', _, _⟩
        · rw [← hun]; exact hv
        · rw [hv] at hv'
          cases hv'
          omega
      obtain ⟨vm, hvm, hvmpos, hvmv⟩ := hstart q v hstartv hpos
      have hcp : c ∈ g.deps p := by
        rw [heq]
        exact List.mem_append.mpr (Or.inr (List.mem_cons_self _ _))
      exact ⟨q, hnm, Relation.ReflTransGen.head hcp hstar, vm, hvm,
        hvmpos⟩
    have hsetpos : ∀ q v, mapGet (mapSet m p ℓ) q = some v → 0 < v →
        ∃ vm, mapGet m q = some vm ∧ 0 < vm ∧ vm = v := by
      intro q v hv hpos
      rw [mapGet_mapSet] at hv
      by_cases hpq : p = q
      · rw [if_pos hpq] at hv
        cases hv
        omega
      · rw [if_neg hpq] at hv
        exact ⟨v, hv, hpos, rfl⟩
    cases hmp : mapGet m p with
    | none =>
      rw [dstDown_succ_none g fuel ℓ p m hmp] at h
      exact hfold _ hsetpos h
    | some e =>
      rw [dstDown_succ_some g fuel ℓ p m e hmp] at h
      by_cases he0 : e = 0
      · rw [if_pos he0] at h
        exact hfold _ hsetpos h
      · rw [if_neg he0] at h
        by_cases hepos : 0 < e
        · rw [if_pos hepos] at h
          cases h
          exact ⟨p, rfl, Relation.ReflTransGen.refl, e, hmp, hepos⟩
        · rw [if_neg hepos] at h
          by_cases hle : e ≤ ℓ
          · rw [if_pos hle] at h
            cases h
          · rw [if_neg hle] at h
            exact hfold _ hsetpos h

theorem order_contra_elim {g : Graph} {id : String} {i a b : Bool}
    {f : Nat} {nm : String}
    (h : order g id i a b f = .error (.contra nm)) :
    ∃ center, g.find id = some center ∧
      ((a = true ∧ dstUp g f 0 center (mapSet [] center 0)
          = .error (.contra nm)) ∨
       (∃ m1, (if a then dstUp g f 0 center (mapSet [] center 0)
          else .ok (mapSet [] center 0)) = .ok m1 ∧
        b = true ∧ dstDown g f 0 center m1 = .error (.contra nm))) := by
  unfold order at h
  cases hfind : g.find id with
  | none => simp [hfind] at h
  | some center =>
    simp only [hfind] at h
    cases h1 : (if a then dstUp g f 0 center (mapSet [] center 0)
        else .ok (mapSet [] center 0)) with
    | error e =>
      simp only [h1] at h
      cases h
      cases a with
      | false => rw [if_neg (by simp)] at h1; cases h1
      | true =>
        rw [if_pos rfl] at h1
        exact ⟨center, rfl, Or.inl ⟨rfl, h1⟩⟩
    | ok m1 =>
      simp only [h1] at h
      cases h2 : (if b then dstDown g f 0 center m1 else .ok m1) with
      | error e =>
        simp only [h2] at h
        cases h
        cases b with
        | false => rw [if_neg (by simp)] at h2; cases h2
        | true =>
          rw [if_pos rfl] at h2
          exact ⟨center, rfl, Or.inr ⟨m1, h1, rfl, h2⟩⟩
      | ok m2 =>
        simp only [h2] at h
        cases h

/-- C4, amended to what the code does.  First, whenever `order` with
both direction flags fails with the graph-contradiction error, the
named project is one the descendant traversal reached (dependency-
reachable from the anchor, possibly the anchor itself) while it already
held a positive (ancestor-side) level — so it is the anchor or a strict
consumer-descendant of the anchor; it need not be a given
both-ways-reachable node `X`.  Second, when some node `X` *is* reachable
from the anchor both along consumer edges and along dependency edges,
the call can never return a sequence (on edge-symmetric graphs the
hypothesis forces a directed cycle and the traversal never terminates;
otherwise the contradiction error fires). -/
theorem claim4_amended :
    (∀ (g : Graph) (id : String) (i : Bool) (f : Nat) (nm : String),
      order g id i true true f = .error (.contra nm) →
      ∃ center q, g.find id = some center ∧ nm = g.nameOf q ∧
        DepStar g center q ∧ (q = center ∨ ConsPlus g center q))
    ∧ (∀ (g : Graph) (id : String) (i : Bool) (f : Nat)
        (center X : Nat) (r : List Nat), g.find id = some center →
        ConsPlus g center X → DepPlus g center X →
        ¬ order g id i true true f = .ok r) := by
  constructor
  · intro g id i f nm h
    obtain ⟨center, hfind, hcase⟩ := order_contra_elim h
    rcases hcase with ⟨_, herr⟩ | ⟨m1, h1, _, herr⟩
    · exfalso
      refine dstUp_nonneg_no_contra g f 0 center (mapSet [] center 0) nm
        (le_refl 0) ?_ herr
      intro q v hv
      rw [mapGet_m0] at hv
      by_cases hc : center = q
      · rw [if_pos hc] at hv; cases hv; exact le_refl 0
      · rw [if_neg hc] at hv; cases hv
    · obtain ⟨q, hnm, hstar, v, hv, hpos⟩ :=
        dstDown_contra_names g f 0 center m1 nm (le_refl 0) herr
      obtain ⟨_, _, _, M1d, _, _, _⟩ := upPhase_facts g center true f m1 h1
      refine ⟨center, q, hfind, hnm, hstar, ?_⟩
      rcases M1d q v hv with hc | ⟨_, hcp, _⟩
      · exact Or.inl hc
      · exact Or.inr hcp
  · intro g id i f center X r hfind hcp hdp h
    obtain ⟨center', m2, hfind', _, F⟩ := order_ok_final h
    rw [hfind] at hfind'
    cases hfind'
    obtain ⟨_, _, _, _, _, _, _, F8, F9⟩ := F
    obtain ⟨v, hv, h1⟩ := F8 rfl X hcp
    obtain ⟨v', hv', hneg⟩ := F9 rfl X hdp
    rw [hv] at hv'
    cases hv'
    omega

/-! ### Fuel irrelevance: the embedding's only operational parameter
does not influence a successful result -/

theorem foldSteps_mono {step step' : Nat → AMap → Except Err AMap}
    (hstep : ∀ c m m', step c m = .ok m' → step' c m = .ok m') :
    ∀ (cs : List Nat) (m m' : AMap),
      foldSteps step cs m = .ok m' → foldSteps step' cs m = .ok m' := by
  intro cs
  induction cs with
  | nil => intro m m' h; exact h
  | cons c cs ih =>
    intro m m' h
    simp only [foldSteps] at h ⊢
    cases hs : step c m with
    | error e => rw [hs] at h; cases h
    | ok m₁ =>
      rw [hs] at h
      rw [hstep c m m₁ hs]
      exact ih m₁ m' h

theorem dstUp_fuel_mono (g : Graph) :
    ∀ (f f' : Nat), f ≤ f' →
      ∀ (ℓ : Int) (p : Nat) (m m' : AMap),
        dstUp g f ℓ p m = .ok m' → dstUp g f' ℓ p m = .ok m' := by
  intro f
  induction f with
  | zero =>
    intro f' _ ℓ p m m' h
    simp [dstUp] at h
  | succ f ih =>
    intro f' hff ℓ p m m' h
    cases f' with
    | zero => omega
    | succ f'' =>
      have hmono := ih f'' (by omega) (ℓ + 1)
      have hfold := foldSteps_mono
        (fun c mm mm' hh => hmono c mm mm' hh)
      cases hmp : mapGet m p with
      | none =>
        rw [dstUp_succ_none g f ℓ p m hmp] at h
        rw [dstUp_succ_none g f'' ℓ p m hmp]
        exact hfold _ _ _ h
      | some e =>
        rw [dstUp_succ_some g f ℓ p m e hmp] at h
        rw [dstUp_succ_some g f'' ℓ p m e hmp]
        by_cases he0 : e = 0
        · rw [if_pos he0] at h ⊢
          exact hfold _ _ _ h
        · rw [if_neg he0] at h ⊢
          by_cases heneg : e < 0
          · rw [if_pos heneg] at h; cases h
          · rw [if_neg heneg] at h ⊢
            by_cases hle : ℓ ≤ e
            · rw [if_pos hle] at h ⊢
              exact h
            · rw [if_neg hle] at h ⊢
              exact hfold _ _ _ h

theorem dstDown_fuel_mono (g : Graph) :
    ∀ (f f' : Nat), f ≤ f' →
      ∀ (ℓ : Int) (p : Nat) (m m' : AMap),
        dstDown g f ℓ p m = .ok m' → dstDown g f' ℓ p m = .ok m' := by
  intro f
  induction f with
  | zero =>
    intro f' _ ℓ p m m' h
    simp [dstDown] at h
  | succ f ih =>
    intro f' hff ℓ p m m' h
    cases f' with
    | zero => omega
    | succ f'' =>
      have hmono := ih f'' (by omega) (ℓ - 1)
      have hfold := foldSteps_mono
        (fun c mm mm' hh => hmono c mm mm' hh)
      cases hmp : mapGet m p with
      | none =>
        rw [dstDown_succ_none g f ℓ p m hmp] at h
        rw [dstDown_succ_none g f'' ℓ p m hmp]
        exact hfold _ _ _ h
      | some e =>
        rw [dstDown_succ_some g f ℓ p m e hmp] at h
        rw [dstDown_succ_some g f'' ℓ p m e hmp]
        by_cases he0 : e = 0
        · rw [if_pos he0] at h ⊢
          exact hfold _ _ _ h
        · rw [if_neg he0] at h ⊢
          by_cases hepos : 0 < e
          · rw [if_pos hepos] at h; cases h
          · rw [if_neg hepos] at h ⊢
            by_cases hle : e ≤ ℓ
            · rw [if_pos hle] at h ⊢
              exact h
            · rw [if_neg hle] at h ⊢
              exact hfold _ _ _ h

theorem order_fuel_mono (g : Graph) (id : String) (i a b : Bool)
    {f f' : Nat} {r : List Nat} (h : order g id i a b f = .ok r)
    (hff : f ≤ f') : order g id i a b f' = .ok r := by
  obtain ⟨center, m1, m2, hfind, h1, h2, hr⟩ := order_ok_elim h
  have h1' : (if a then dstUp g f' 0 center (mapSet [] center 0)
      else .ok (mapSet [] center 0)) = .ok m1 := by
    cases a with
    | false => rw [if_neg (by simp)] at h1 ⊢; exact h1
    | true =>
      rw [if_pos rfl] at h1 ⊢
      exact dstUp_fuel_mono g f f' hff 0 center _ m1 h1
  have h2' : (if b then dstDown g f' 0 center m1 else .ok m1)
      = .ok m2 := by
    cases b with
    | false => rw [if_neg (by simp)] at h2 ⊢; exact h2
    | true =>
      rw [if_pos rfl] at h2 ⊢
      exact dstDown_fuel_mono g f f' hff 0 center m1 m2 h2
  unfold order
  rw [hfind]
  simp only [h1', h2']
  rw [hr]

theorem harvestGo_fuel_mono (g : Graph) {f f' : Nat} (hff : f ≤ f')
    (req : List Nat) :
    ∀ (lf li : Nat) (missing : List Nat) (rs : List (List Nat)) X,
      harvestGo g f req lf li missing rs = .ok X →
      harvestGo g f' req lf li missing rs = .ok X := by
  intro lf
  induction lf with
  | zero =>
    intro li missing rs X h
    simp [harvestGo] at h
  | succ lf ih =>
    intro li missing rs X h
    cases missing with
    | nil => exact h
    | cons requested missingRest =>
      simp only [harvestGo] at h ⊢
      cases ho : order g (g.nameOf requested) true true true f with
      | error e => simp only [ho] at h; cases h
      | ok resultProjects =>
        have ho' := order_fuel_mono g (g.nameOf requested) true true true
          ho hff
        simp only [ho] at h
        simp only [ho']
        by_cases hsz : (intersect resultProjects req).length = req.length
        · rw [if_pos hsz] at h ⊢
          exact h
        · rw [if_neg hsz] at h ⊢
          cases hcl : checkLoop (li + 1) with
          | error e => simp only [hcl] at h; cases h
          | ok u =>
            cases u
            simp only [hcl] at h ⊢
            exact ih _ _ _ _ h

theorem orderMultiple_ok_elim {g : Graph} {ids : List String} {f : Nat}
    {r : List Nat} (h : orderMultiple g ids f = .ok r) :
    ∃ req, resolveIds g ids [] = .ok req ∧
      ((req.length = 0 ∧ r = []) ∨
       (¬ req.length = 0 ∧ ∃ rs,
         harvestGo g f req loopFuel 0 req [] = .ok rs ∧
         mergeGo g loopFuel 0 rs = .ok r)) := by
  unfold orderMultiple at h
  cases hres : resolveIds g ids [] with
  | error e => rw [hres] at h; cases h
  | ok req =>
    simp only [hres] at h
    by_cases hz : req.length = 0
    · rw [if_pos hz] at h
      cases h
      exact ⟨req, rfl, Or.inl ⟨hz, rfl⟩⟩
    · rw [if_neg hz] at h
      cases hh : harvestGo g f req loopFuel 0 req [] with
      | error e => simp only [hh] at h; cases h
      | ok rs =>
        simp only [hh] at h
        exact ⟨req, rfl, Or.inr ⟨hz, rs, hh, h⟩⟩

/-- C6 (determinism): `order` and `orderMultiple` are pure functions of
the graph and their parameters.  In the embedding the only additional
operational parameter is the traversal fuel, and a successful result is
independent of it: any two calls that return a sequence (with any
sufficient fuel) return the same sequence.  This reflects that the
JavaScript `Set`/`Map` iteration the code relies on is deterministic
insertion order. -/
theorem claim6_theorem :
    (∀ (g : Graph) (id : String) (i a b : Bool) (f f' : Nat)
      (r : List Nat), order g id i a b f = .ok r → f ≤ f' →
      order g id i a b f' = .ok r)
    ∧ (∀ (g : Graph) (ids : List String) (f f' : Nat) (r : List Nat),
      orderMultiple g ids f = .ok r → f ≤ f' →
      orderMultiple g ids f' = .ok r) := by
  constructor
  · intro g id i a b f f' r h hff
    exact order_fuel_mono g id i a b h hff
  · intro g ids f f' r h hff
    obtain ⟨req, hres, hcase⟩ := orderMultiple_ok_elim h
    rcases hcase with ⟨hz, rfl⟩ | ⟨hz, rs, hh, hm⟩
    · unfold orderMultiple
      simp only [hres, if_pos hz]
    · unfold orderMultiple
      simp only [hres, if_neg hz,
        harvestGo_fuel_mono g hff req loopFuel 0 req [] rs hh]
      exact hm

theorem resolveIds_first_error (g : Graph) :
    ∀ (pre : List String) (bad : String) (rest : List String)
      (acc : List Nat),
      (∀ x ∈ pre, (g.find x).isSome) → g.find bad = none →
      resolveIds g (pre ++ bad :: rest) acc =
        .error (.unknownMulti bad) := by
  intro pre
  induction pre with
  | nil =>
    intro bad rest acc _ hbad
    simp only [List.nil_append, resolveIds]
    rw [hbad]
  | cons x pre ih =>
    intro bad rest acc hpre hbad
    simp only [List.cons_append, resolveIds]
    cases hx : g.find x with
    | none =>
      have := hpre x (List.mem_cons_self _ _)
      rw [hx] at this
      cases this
    | some p =>
      exact ih bad rest (setAdd acc p)
        (fun y hy => hpre y (List.mem_cons_of_mem _ hy)) hbad

/-- C7 (confirmed): `order` fails with the unknown-project error naming
the requested identifier whenever the anchor id does not resolve, and
`orderMultiple` fails with the unknown-project error naming the first
identifier in its list that does not resolve (all earlier ids
resolving); in both cases the call returns an error, never a
sequence. -/
theorem claim7_theorem :
    (∀ (g : Graph) (id : String) (i a b : Bool) (f : Nat),
      g.find id = none →
      order g id i a b f = .error (.unknownOrder id))
    ∧ (∀ (g : Graph) (pre : List String) (bad : String)
        (rest : List String) (f : Nat),
      (∀ x ∈ pre, (g.find x).isSome) → g.find bad = none →
      orderMultiple g (pre ++ bad :: rest) f =
        .error (.unknownMulti bad)) := by
  constructor
  · intro g id i a b f hfind
    unfold order
    rw [hfind]
  · intro g pre bad rest f hpre hbad
    unfold orderMultiple
    rw [resolveIds_first_error g pre bad rest [] hpre hbad]

/-- Witness for C7 at concrete inputs: an id absent from the one-node
graph `gSelf` makes `order` fail naming it, and in a list whose first
entry resolves, `orderMultiple` fails naming the second, unresolved
entry. -/
theorem claim7_witness :
    order gSelf "ghost" true false true 3
      = .error (.unknownOrder "ghost")
    ∧ orderMultiple gSelf ["s", "ghost"] 3
      = .error (.unknownMulti "ghost") := by
  constructor
  · exact claim7_theorem.1 gSelf "ghost" true false true 3 (by decide)
  · exact claim7_theorem.2 gSelf ["s"] "ghost" [] 3
      (by intro x hx; rcases List.mem_singleton.mp hx with rfl; decide)
      (by decide)

/-! ### Lemmas about the synchronized k-way merge -/

theorem setUntil_none_eq (l : List Nat) : setUntil none l = (l, []) := by
  induction l with
  | nil => rfl
  | cons x xs ih => simp [setUntil, ih]

theorem setUntil_fst_subset (u : Option Nat) (l : List Nat) :
    ∀ x ∈ (setUntil u l).1, x ∈ l := by
  induction l with
  | nil => intro x hx; cases hx
  | cons y ys ih =>
    intro x hx
    unfold setUntil at hx
    by_cases hy : some y = u
    · rw [if_pos hy] at hx; cases hx
    · rw [if_neg hy] at hx
      rcases List.mem_cons.mp hx with rfl | hx
      · exact List.mem_cons_self _ _
      · exact List.mem_cons_of_mem _ (ih x hx)

theorem setUntil_snd_subset (u : Option Nat) (l : List Nat) :
    ∀ x ∈ (setUntil u l).2, x ∈ l := by
  induction l with
  | nil => intro x hx; cases hx
  | cons y ys ih =>
    intro x hx
    unfold setUntil at hx
    by_cases hy : some y = u
    · rw [if_pos hy] at hx
      exact List.mem_cons_of_mem _ hx
    · rw [if_neg hy] at hx
      exact List.mem_cons_of_mem _ (ih x hx)

theorem mem_setUntil (u : Option Nat) (l : List Nat) (x : Nat)
    (hx : x ∈ l) :
    x ∈ (setUntil u l).1 ∨ x ∈ (setUntil u l).2 ∨ some x = u := by
  induction l with
  | nil => cases hx
  | cons y ys ih =>
    unfold setUntil
    by_cases hy : some y = u
    · rw [if_pos hy]
      rcases List.mem_cons.mp hx with rfl | hx
      · exact Or.inr (Or.inr hy)
      · exact Or.inr (Or.inl hx)
    · rw [if_neg hy]
      rcases List.mem_cons.mp hx with rfl | hx
      · exact Or.inl (List.mem_cons_self _ _)
      · rcases ih hx with h | h | h
        · exact Or.inl (List.mem_cons_of_mem _ h)
        · exact Or.inr (Or.inl h)
        · exact Or.inr (Or.inr h)

theorem mergePhase_foldl (u : Option Nat) :
    ∀ (iters : List (List Nat)) (m : List Nat) (acc : List (List Nat)),
      iters.foldl (fun st it =>
        ((setUntil u it).1.foldl setAdd st.1, st.2 ++ [(setUntil u it).2]))
        (m, acc) =
      (iters.foldl (fun s it => (setUntil u it).1.foldl setAdd s) m,
        acc ++ iters.map (fun it => (setUntil u it).2)) := by
  intro iters
  induction iters with
  | nil => intro m acc; simp
  | cons it iters ih =>
    intro m acc
    rw [List.foldl_cons, List.foldl_cons, ih]
    simp

theorem mergePhase_eq (u : Option Nat) (iters : List (List Nat))
    (m : List Nat) :
    mergePhase u iters m =
      (iters.foldl (fun s it => (setUntil u it).1.foldl setAdd s) m,
        iters.map (fun it => (setUntil u it).2)) := by
  unfold mergePhase
  have h := mergePhase_foldl u iters m []
  have hstep : (fun (st : List Nat × List (List Nat)) it =>
      let r := setUntil u it
      (r.1.foldl setAdd st.1, st.2 ++ [r.2])) =
      (fun st it =>
      ((setUntil u it).1.foldl setAdd st.1,
        st.2 ++ [(setUntil u it).2])) := rfl
  rw [hstep, h]
  simp

theorem mem_phaseFold (u : Option Nat) (iters : List (List Nat)) :
    ∀ (m : List Nat) (x : Nat),
      x ∈ iters.foldl (fun s it => (setUntil u it).1.foldl setAdd s) m ↔
        x ∈ m ∨ ∃ it ∈ iters, x ∈ (setUntil u it).1 := by
  induction iters with
  | nil => intro m x; simp
  | cons it iters ih =>
    intro m x
    rw [List.foldl_cons, ih, mem_foldl_setAdd]
    constructor
    · rintro ((h | h) | ⟨it', hit', h⟩)
      · exact Or.inl h
      · exact Or.inr ⟨it, List.mem_cons_self _ _, h⟩
      · exact Or.inr ⟨it', List.mem_cons_of_mem _ hit', h⟩
    · rintro (h | ⟨it', hit', h⟩)
      · exact Or.inl (Or.inl h)
      · rcases List.mem_cons.mp hit' with rfl | hit'
        · exact Or.inl (Or.inr h)
        · exact Or.inr ⟨it', hit', h⟩

theorem nodup_phaseFold (u : Option Nat) (iters : List (List Nat)) :
    ∀ (m : List Nat), m.Nodup →
      (iters.foldl (fun s it => (setUntil u it).1.foldl setAdd s)
        m).Nodup := by
  induction iters with
  | nil => intro m h; exact h
  | cons it iters ih =>
    intro m h
    exact ih _ (nodup_foldl_setAdd _ _ h)

theorem mem_mergeRun : ∀ (I : List Nat) (iters : List (List Nat))
    (m : List Nat) (x : Nat),
    x ∈ mergeRun I iters m ↔ x ∈ m ∨ x ∈ I ∨ ∃ it ∈ iters, x ∈ it := by
  intro I
  induction I with
  | nil =>
    intro iters m x
    unfold mergeRun
    rw [mergePhase_eq]
    rw [mem_phaseFold]
    constructor
    · rintro (h | ⟨it, hit, h⟩)
      · exact Or.inl h
      · rw [setUntil_none_eq] at h
        exact Or.inr (Or.inr ⟨it, hit, h⟩)
    · rintro (h | h | ⟨it, hit, h⟩)
      · exact Or.inl h
      · cases h
      · refine Or.inr ⟨it, hit, ?_⟩
        rw [setUntil_none_eq]
        exact h
  | cons v I ih =>
    intro iters m x
    unfold mergeRun
    rw [mergePhase_eq]
    rw [ih, mem_setAdd, mem_phaseFold]
    constructor
    · rintro ((( h | ⟨it, hit, h⟩) | rfl) | h | ⟨it', hit', h⟩)
      · exact Or.inl h
      · exact Or.inr (Or.inr ⟨it, hit, setUntil_fst_subset _ _ x h⟩)
      · exact Or.inr (Or.inl (List.mem_cons_self _ _))
      · exact Or.inr (Or.inl (List.mem_cons_of_mem _ h))
      · rcases List.mem_map.mp hit' with ⟨it, hit, rfl⟩
        exact Or.inr (Or.inr ⟨it, hit, setUntil_snd_subset _ _ x h⟩)
    · rintro (h | h | ⟨it, hit, h⟩)
      · exact Or.inl (Or.inl (Or.inl h))
      · rcases List.mem_cons.mp h with rfl | h
        · exact Or.inl (Or.inr rfl)
        · exact Or.inr (Or.inl h)
      · rcases mem_setUntil (some v) it x h with he | hr | hv
        · exact Or.inl (Or.inl (Or.inr ⟨it, hit, he⟩))
        · exact Or.inr (Or.inr ⟨(setUntil (some v) it).2,
            List.mem_map.mpr ⟨it, hit, rfl⟩, hr⟩)
        · cases hv
          exact Or.inl (Or.inr rfl)

theorem nodup_mergeRun : ∀ (I : List Nat) (iters : List (List Nat))
    (m : List Nat), m.Nodup → (mergeRun I iters m).Nodup := by
  intro I
  induction I with
  | nil =>
    intro iters m h
    unfold mergeRun
    rw [mergePhase_eq]
    exact nodup_phaseFold _ _ _ h
  | cons v I ih =>
    intro iters m h
    unfold mergeRun
    rw [mergePhase_eq]
    exact ih _ _ (nodup_setAdd _ _ (nodup_phaseFold _ _ _ h))

/-- C2, amended to what the merge actually guarantees: in the
synchronized k-way case (the intersection does not account for all
elements of the intersecting slices), the merged slice contains each
element of each input slice and of the intersection exactly once — it is
the deduplicated union — but it is not, in general, order-consistent
with every input slice (see the counterexample). -/
theorem claim2_amended (I : List Nat) (sets : List (List Nat))
    (hkway : ¬ I.length = sets.foldl (fun n s => n + s.length) 0) :
    (smartMergeIntersectingSets I sets).Nodup ∧
    ∀ x, x ∈ smartMergeIntersectingSets I sets ↔
      (x ∈ I ∨ ∃ S ∈ sets, x ∈ S) := by
  unfold smartMergeIntersectingSets
  rw [if_neg hkway]
  refine ⟨nodup_mergeRun I sets [] (by simp), ?_⟩
  intro x
  rw [mem_mergeRun]
  simp

/-- Witness for the amended C2 on the counterexample's merge inputs,
instantiated at the element `4` contributed by the second slice. -/
theorem claim2_amended_witness :
    (smartMergeIntersectingSets [3, 2] [[3, 2, 0], [2, 3, 4]]).Nodup ∧
    (4 ∈ smartMergeIntersectingSets [3, 2] [[3, 2, 0], [2, 3, 4]] ↔
      (4 ∈ [3, 2] ∨ ∃ S ∈ [[3, 2, 0], [2, 3, 4]], 4 ∈ S)) :=
  ⟨(claim2_amended [3, 2] [[3, 2, 0], [2, 3, 4]] (by decide)).1,
   (claim2_amended [3, 2] [[3, 2, 0], [2, 3, 4]] (by decide)).2 4⟩

theorem phaseFold_all_head (v : Nat) (I : List Nat) :
    ∀ (iters : List (List Nat)) (m : List Nat),
      (∀ it ∈ iters, it = v :: I) →
      iters.foldl (fun s it => (setUntil (some v) it).1.foldl setAdd s) m
        = m := by
  intro iters
  induction iters with
  | nil => intro m _; rfl
  | cons it iters ih =>
    intro m hall
    rw [List.foldl_cons]
    rw [hall it (List.mem_cons_self _ _)]
    have hsu : setUntil (some v) (v :: I) = ([], I) := by
      simp [setUntil]
    rw [hsu]
    exact ih m (fun it' hit' => hall it' (List.mem_cons_of_mem _ hit'))

theorem mergeRun_all_eq : ∀ (I : List Nat) (iters : List (List Nat))
    (m : List Nat), (∀ it ∈ iters, it = I) →
    mergeRun I iters m = I.foldl setAdd m := by
  intro I
  induction I with
  | nil =>
    intro iters m hall
    unfold mergeRun
    rw [mergePhase_eq]
    show iters.foldl
      (fun s it => (setUntil none it).1.foldl setAdd s) m = m
    induction iters with
    | nil => rfl
    | cons it iters ih =>
      rw [List.foldl_cons, hall it (List.mem_cons_self _ _),
        setUntil_none_eq]
      exact ih (fun it' hit' => hall it' (List.mem_cons_of_mem _ hit'))
  | cons v I ih =>
    intro iters m hall
    unfold mergeRun
    rw [mergePhase_eq]
    show mergeRun I (iters.map fun it => (setUntil (some v) it).2)
      (setAdd (iters.foldl
        (fun s it => (setUntil (some v) it).1.foldl setAdd s) m) v)
      = (v :: I).foldl setAdd m
    rw [phaseFold_all_head v I iters m hall]
    rw [List.foldl_cons]
    apply ih
    intro it' hit'
    rcases List.mem_map.mp hit' with ⟨it, hit, rfl⟩
    rw [hall it hit]
    simp [setUntil]

/-- C5 (confirmed): when every intersecting slice handed to
`smartMergeIntersectingSets` is equal, as an ordered sequence, to the
computed intersection, the merged replacement is that intersection
itself.  (With at least two nonempty equal slices the size fast-path
cannot fire, but the synchronized merge reproduces the intersection
anyway; with one or zero slices the fast path returns it directly.) -/
theorem claim5_theorem (I : List Nat) (sets : List (List Nat))
    (hnd : I.Nodup) (hall : ∀ S ∈ sets, S = I) :
    smartMergeIntersectingSets I sets = I := by
  unfold smartMergeIntersectingSets
  by_cases hfast : I.length = sets.foldl (fun n s => n + s.length) 0
  · rw [if_pos hfast]
  · rw [if_neg hfast]
    rw [mergeRun_all_eq I sets [] hall]
    exact foldl_setAdd_eq_append I [] (by intro x _ hx; cases hx) hnd

/-- Witness for C5: two identical slices `[7, 9]` merge to `[7, 9]`. -/
theorem claim5_witness :
    smartMergeIntersectingSets [7, 9] [[7, 9], [7, 9]] = [7, 9] :=
  claim5_theorem [7, 9] [[7, 9], [7, 9]] (by decide)
    (by intro S hS; rcases List.mem_cons.mp hS with rfl | hS
        · rfl
        · rcases List.mem_singleton.mp hS with rfl; rfl)

/-- Witness for the amended C1: in the run
`order gMerge "r1" true true true`, project `y` (node 3) is a dependency
of `a` (node 1) and indeed precedes it in the result `[3, 1, 2, 0]`. -/
theorem claim1_amended_witness :
    List.indexOf 3 [3, 1, 2, 0] < List.indexOf 1 [3, 1, 2, 0] :=
  claim1_amended gMerge "r1" true true true 40 [3, 1, 2, 0] 3 1 rfl
    (by decide) (by decide) (by decide) (by decide) (by decide)

/-- Witness for the amended C3 on `gWeak`, instantiated at project `c`
(node 1), a direct consumer of the anchor. -/
theorem claim3_amended_witness :
    1 ∈ [0, 1] ↔ ((true = true ∧ 1 = 0)
      ∨ (¬ 1 = 0 ∧ true = true ∧ ConsPlus gWeak 0 1)
      ∨ (¬ 1 = 0 ∧ true = true ∧ DepPlus gWeak 0 1)) :=
  claim3_amended gWeak "r" true true true 20 [0, 1] 0 rfl rfl 1

/-- Witness for the amended C4: the contradiction error raised on
`gContra` names a dependency-reachable consumer-side project, and on the
self-looped `gSelf` (where node 0 is reachable from itself both ways)
the call cannot return a sequence. -/
theorem claim4_amended_witness :
    (∃ center q, gContra.find "A" = some center ∧
      "Y" = gContra.nameOf q ∧ DepStar gContra center q ∧
      (q = center ∨ ConsPlus gContra center q))
    ∧ ¬ order gSelf "s" true true true 5 = .ok [0] :=
  ⟨claim4_amended.1 gContra "A" true 10 "Y" rfl,
   claim4_amended.2 gSelf "s" true 5 0 0 [0] rfl
    (Relation.TransGen.single (by decide))
    (Relation.TransGen.single (by decide))⟩

/-- Witness for C6: concrete successful runs are reproduced unchanged
with larger fuel. -/
theorem claim6_witness :
    order gTopo "n0" true true true 11 = .ok [0, 2, 3]
    ∧ orderMultiple gTopo ["n1"] 11 = .ok [1] :=
  ⟨claim6_theorem.1 gTopo "n0" true true true 10 11 [0, 2, 3] rfl
    (by omega),
   claim6_theorem.2 gTopo ["n1"] 10 11 [1] rfl (by omega)⟩

/-! ### C9 — the graph is never mutated -/

theorem foldStepsSt_frame (g : Graph)
    (stepSt : Nat → AMap → Graph → Except Err (AMap × Graph))
    (step : Nat → AMap → Except Err AMap)
    (hstep : ∀ c m, stepSt c m g = (step c m).map (fun mm => (mm, g))) :
    ∀ (cs : List Nat) (m : AMap),
      foldStepsSt stepSt cs m g =
        (foldSteps step cs m).map (fun mm => (mm, g)) := by
  intro cs
  induction cs with
  | nil => intro m; rfl
  | cons c cs ih =>
    intro m
    simp only [foldStepsSt, foldSteps, hstep c m]
    cases h : step c m with
    | error e => rfl
    | ok m' => exact ih m'

theorem dstUpSt_succ (fuel : Nat) (ℓ : Int) (p : Nat) (m : AMap)
    (g : Graph) :
    dstUpSt (fuel + 1) ℓ p m g =
      match mapGet m p with
      | none =>
        foldStepsSt (fun c acc gs => dstUpSt fuel (ℓ + 1) c acc gs)
          (g.cons p) (mapSet m p ℓ) g
      | some e =>
        if e = 0 then
          foldStepsSt (fun c acc gs => dstUpSt fuel (ℓ + 1) c acc gs)
            (g.cons p) (mapSet m p ℓ) g
        else if e < 0 then .error (.contra (g.nameOf p))
        else if ℓ ≤ e then .ok (m, g)
        else
          foldStepsSt (fun c acc gs => dstUpSt fuel (ℓ + 1) c acc gs)
            (g.cons p) (mapSet m p ℓ) g := rfl

theorem dstDownSt_succ (fuel : Nat) (ℓ : Int) (p : Nat) (m : AMap)
    (g : Graph) :
    dstDownSt (fuel + 1) ℓ p m g =
      match mapGet m p with
      | none =>
        foldStepsSt (fun c acc gs => dstDownSt fuel (ℓ - 1) c acc gs)
          (g.deps p) (mapSet m p ℓ) g
      | some e =>
        if e = 0 then
          foldStepsSt (fun c acc gs => dstDownSt fuel (ℓ - 1) c acc gs)
            (g.deps p) (mapSet m p ℓ) g
        else if 0 < e then .error (.contra (g.nameOf p))
        else if e ≤ ℓ then .ok (m, g)
        else
          foldStepsSt (fun c acc gs => dstDownSt fuel (ℓ - 1) c acc gs)
            (g.deps p) (mapSet m p ℓ) g := rfl

theorem dstUpSt_succ_none (fuel : Nat) (ℓ : Int) (p : Nat) (m : AMap)
    (g : Graph) (hmp : mapGet m p = none) :
    dstUpSt (fuel + 1) ℓ p m g =
      foldStepsSt (fun c acc gs => dstUpSt fuel (ℓ + 1) c acc gs)
        (g.cons p) (mapSet m p ℓ) g := by
  rw [dstUpSt_succ, hmp]

theorem dstUpSt_succ_some (fuel : Nat) (ℓ : Int) (p : Nat) (m : AMap)
    (g : Graph) (e : Int) (hmp : mapGet m p = some e) :
    dstUpSt (fuel + 1) ℓ p m g =
      (if e = 0 then
        foldStepsSt (fun c acc gs => dstUpSt fuel (ℓ + 1) c acc gs)
          (g.cons p) (mapSet m p ℓ) g
      else if e < 0 then .error (.contra (g.nameOf p))
      else if ℓ ≤ e then .ok (m, g)
      else
        foldStepsSt (fun c acc gs => dstUpSt fuel (ℓ + 1) c acc gs)
          (g.cons p) (mapSet m p ℓ) g) := by
  rw [dstUpSt_succ, hmp]

theorem dstDownSt_succ_none (fuel : Nat) (ℓ : Int) (p : Nat) (m : AMap)
    (g : Graph) (hmp : mapGet m p = none) :
    dstDownSt (fuel + 1) ℓ p m g =
      foldStepsSt (fun c acc gs => dstDownSt fuel (ℓ - 1) c acc gs)
        (g.deps p) (mapSet m p ℓ) g := by
  rw [dstDownSt_succ, hmp]

theorem dstDownSt_succ_some (fuel : Nat) (ℓ : Int) (p : Nat) (m : AMap)
    (g : Graph) (e : Int) (hmp : mapGet m p = some e) :
    dstDownSt (fuel + 1) ℓ p m g =
      (if e = 0 then
        foldStepsSt (fun c acc gs => dstDownSt fuel (ℓ - 1) c acc gs)
          (g.deps p) (mapSet m p ℓ) g
      else if 0 < e then .error (.contra (g.nameOf p))
      else if e ≤ ℓ then .ok (m, g)
      else
        foldStepsSt (fun c acc gs => dstDownSt fuel (ℓ - 1) c acc gs)
          (g.deps p) (mapSet m p ℓ) g) := by
  rw [dstDownSt_succ, hmp]

theorem dstUpSt_frame (g : Graph) :
    ∀ (fuel : Nat) (ℓ : Int) (p : Nat) (m : AMap),
      dstUpSt fuel ℓ p m g =
        (dstUp g fuel ℓ p m).map (fun mm => (mm, g)) := by
  intro fuel
  induction fuel with
  | zero => intro ℓ p m; rfl
  | succ fuel ih =>
    intro ℓ p m
    have hfold := foldStepsSt_frame g
      (fun c acc gs => dstUpSt fuel (ℓ + 1) c acc gs)
      (fun c acc => dstUp g fuel (ℓ + 1) c acc)
      (fun c mm => ih (ℓ + 1) c mm) (g.cons p) (mapSet m p ℓ)
    cases hmp : mapGet m p with
    | none =>
      rw [dstUpSt_succ_none fuel ℓ p m g hmp,
        dstUp_succ_none g fuel ℓ p m hmp]
      exact hfold
    | some e =>
      rw [dstUpSt_succ_some fuel ℓ p m g e hmp,
        dstUp_succ_some g fuel ℓ p m e hmp]
      by_cases he0 : e = 0
      · simp only [if_pos he0]
        exact hfold
      · simp only [if_neg he0]
        by_cases hneg : e < 0
        · simp only [if_pos hneg]
          rfl
        · simp only [if_neg hneg]
          by_cases hle : ℓ ≤ e
          · simp only [if_pos hle]
            rfl
          · simp only [if_neg hle]
            exact hfold

theorem dstDownSt_frame (g : Graph) :
    ∀ (fuel : Nat) (ℓ : Int) (p : Nat) (m : AMap),
      dstDownSt fuel ℓ p m g =
        (dstDown g fuel ℓ p m).map (fun mm => (mm, g)) := by
  intro fuel
  induction fuel with
  | zero => intro ℓ p m; rfl
  | succ fuel ih =>
    intro ℓ p m
    have hfold := foldStepsSt_frame g
      (fun c acc gs => dstDownSt fuel (ℓ - 1) c acc gs)
      (fun c acc => dstDown g fuel (ℓ - 1) c acc)
      (fun c mm => ih (ℓ - 1) c mm) (g.deps p) (mapSet m p ℓ)
    cases hmp : mapGet m p with
    | none =>
      rw [dstDownSt_succ_none fuel ℓ p m g hmp,
        dstDown_succ_none g fuel ℓ p m hmp]
      exact hfold
    | some e =>
      rw [dstDownSt_succ_some fuel ℓ p m g e hmp,
        dstDown_succ_some g fuel ℓ p m e hmp]
      by_cases he0 : e = 0
      · simp only [if_pos he0]
        exact hfold
      · simp only [if_neg he0]
        by_cases hpos : 0 < e
        · simp only [if_pos hpos]
          rfl
        · simp only [if_neg hpos]
          by_cases hle : e ≤ ℓ
          · simp only [if_pos hle]
            rfl
          · simp only [if_neg hle]
            exact hfold

theorem orderSt_frame (g : Graph) (id : String) (i a b : Bool)
    (f : Nat) :
    orderSt id i a b f g =
      (order g id i a b f).map (fun r => (r, g)) := by
  unfold orderSt order
  cases hfind : g.find id with
  | none => rfl
  | some center =>
    simp only
    have h1 : (if a then dstUpSt f 0 center (mapSet [] center 0) g
        else .ok (mapSet [] center 0, g)) =
        (if a then dstUp g f 0 center (mapSet [] center 0)
          else .ok (mapSet [] center 0)).map (fun mm => (mm, g)) := by
      cases a with
      | false => rfl
      | true => exact dstUpSt_frame g f 0 center _
    rw [h1]
    cases hp1 : (if a then dstUp g f 0 center (mapSet [] center 0)
        else .ok (mapSet [] center 0)) with
    | error e => rfl
    | ok m1 =>
      simp only [Except.map]
      have h2 : (if b then dstDownSt f 0 center m1 g
          else .ok (m1, g)) =
          (if b then dstDown g f 0 center m1
            else .ok m1).map (fun mm => (mm, g)) := by
        cases b with
        | false => rfl
        | true => exact dstDownSt_frame g f 0 center m1
      rw [h2]
      cases hp2 : (if b then dstDown g f 0 center m1 else .ok m1) with
      | error e => rfl
      | ok m2 => rfl

theorem harvestGoSt_frame (g : Graph) (d : Nat) (req : List Nat) :
    ∀ (lf li : Nat) (missing : List Nat) (rs : List (List Nat)),
      harvestGoSt d req lf li missing rs g =
        (harvestGo g d req lf li missing rs).map (fun X => (X, g)) := by
  intro lf
  induction lf with
  | zero => intro li missing rs; rfl
  | succ lf ih =>
    intro li missing rs
    cases missing with
    | nil => rfl
    | cons requested missingRest =>
      simp only [harvestGoSt, harvestGo, orderSt_frame g]
      cases ho : order g (g.nameOf requested) true true true d with
      | error e => simp only [ho, Except.map]
      | ok resultProjects =>
        simp only [ho, Except.map]
        by_cases hsz : (intersect resultProjects req).length = req.length
        · rw [if_pos hsz, if_pos hsz]
        · rw [if_neg hsz, if_neg hsz]
          cases hcl : checkLoop (li + 1) with
          | error e => simp only [hcl]
          | ok u =>
            cases u
            simp only [hcl]
            exact ih _ _ _

theorem mergeGoSt_frame (g : Graph) :
    ∀ (lf li : Nat) (rs : List (List Nat)),
      mergeGoSt lf li rs g =
        (mergeGo g lf li rs).map (fun r => (r, g)) := by
  intro lf
  induction lf with
  | zero => intro li rs; rfl
  | succ lf ih =>
    intro li rs
    simp only [mergeGoSt, mergeGo]
    cases hfi : findAnyIntersection rs with
    | mk U osets =>
      cases osets with
      | none => rfl
      | some intersected =>
        simp only
        cases hcl : checkLoop (li + 1) with
        | error e => simp only [hcl, Except.map]
        | ok u =>
          cases u
          simp only [hcl]
          exact ih _ _

theorem resolveIdsSt_frame (g : Graph) :
    ∀ (ids : List String) (acc : List Nat),
      resolveIdsSt ids acc g =
        (resolveIds g ids acc).map (fun req => (req, g)) := by
  intro ids
  induction ids with
  | nil => intro acc; rfl
  | cons id rest ih =>
    intro acc
    simp only [resolveIdsSt, resolveIds]
    cases hfind : g.find id with
    | none => rfl
    | some p => exact ih _

/-- C9 (confirmed): neither `order` nor `orderMultiple` mutates the
graph.  In the state-threading embedding — where every call receives the
graph as mutable state, every read goes through the current state, and
every call returns the state it leaves behind — both operations return
exactly the input graph as their final state (and the pure result
otherwise agrees with the stateless embedding): every node keeps its
name, its dependency set and its consumer set, and the project map keeps
its entries. -/
theorem claim9_theorem :
    (∀ (g : Graph) (id : String) (i a b : Bool) (f : Nat),
      orderSt id i a b f g =
        (order g id i a b f).map (fun r => (r, g)))
    ∧ (∀ (g : Graph) (ids : List String) (f : Nat),
      orderMultipleSt ids f g =
        (orderMultiple g ids f).map (fun r => (r, g))) := by
  refine ⟨fun g id i a b f => orderSt_frame g id i a b f, ?_⟩
  intro g ids f
  unfold orderMultipleSt orderMultiple
  rw [resolveIdsSt_frame g ids []]
  cases hres : resolveIds g ids [] with
  | error e => rfl
  | ok requesting =>
    simp only [Except.map]
    by_cases hz : requesting.length = 0
    · rw [if_pos hz, if_pos hz]
    · rw [if_neg hz, if_neg hz]
      rw [harvestGoSt_frame g f requesting loopFuel 0 requesting []]
      cases hh : harvestGo g f requesting loopFuel 0 requesting [] with
      | error e => rfl
      | ok rs =>
        simp only [Except.map]
        exact mergeGoSt_frame g loopFuel 0 rs

/-! ### Resolution and error-kind lemmas -/

theorem find_lt_length {g : Graph} {id : String} {p : Nat}
    (h : g.find id = some p) : p < g.nodes.length := by
  unfold Graph.find at h
  cases hf : g.nodes.findIdx? (fun c => c.name = id) with
  | none => rw [hf] at h; cases h
  | some i =>
    rw [hf] at h
    have hh : (some i : Option Nat) = some p := h
    cases Option.some.inj hh
    rw [List.findIdx?_eq_some_iff_getElem] at hf
    exact hf.1

theorem namesResolve_of_check (g : Graph)
    (h : (List.range g.nodes.length).all
      (fun p => decide (g.find (g.nameOf p) = some p)) = true) :
    NamesResolve g := by
  intro p hp
  exact of_decide_eq_true
    (List.all_eq_true.mp h p (List.mem_range.mpr hp))

theorem length_filter_lt {p : Nat → Bool} :
    ∀ (l : List Nat) (x : Nat), x ∈ l → p x = false →
      (l.filter p).length < l.length := by
  intro l
  induction l with
  | nil => intro x hx; cases hx
  | cons y ys ih =>
    intro x hx hpx
    rw [List.filter_cons]
    rcases List.mem_cons.mp hx with rfl | hx
    · rw [hpx]
      simp only [Bool.false_eq_true, if_false, List.length_cons]
      have := List.length_filter_le p ys
      omega
    · have hlt := ih x hx hpx
      cases hpy : p y
      · simp only [Bool.false_eq_true, if_false, List.length_cons]
        omega
      · simp only [if_true, List.length_cons]
        simpa using hlt

theorem resolveIds_ok_facts (g : Graph) :
    ∀ (ids : List String) (acc req : List Nat),
      resolveIds g ids acc = .ok req →
      (req.length ≤ acc.length + ids.length)
      ∧ (acc.Nodup → req.Nodup)
      ∧ ((∀ x ∈ acc, x < g.nodes.length) →
          ∀ x ∈ req, x < g.nodes.length)
      ∧ (∀ x, x ∈ req ↔ x ∈ acc ∨ ∃ id ∈ ids, g.find id = some x) := by
  intro ids
  induction ids with
  | nil =>
    intro acc req h
    cases h
    exact ⟨by simp, fun h => h, fun h => h, by simp⟩
  | cons id rest ih =>
    intro acc req h
    simp only [resolveIds] at h
    cases hfind : g.find id with
    | none => rw [hfind] at h; cases h
    | some p =>
      rw [hfind] at h
      obtain ⟨h1, h2, h3, h4⟩ := ih (setAdd acc p) req h
      refine ⟨?_, ?_, ?_, ?_⟩
      · have hlen : (setAdd acc p).length ≤ acc.length + 1 := by
          unfold setAdd
          by_cases hp : p ∈ acc
          · rw [if_pos hp]; omega
          · rw [if_neg hp]; simp
        simp only [List.length_cons]
        omega
      · intro hacc
        exact h2 (nodup_setAdd acc p hacc)
      · intro hacc
        refine h3 ?_
        intro x hx
        rcases (mem_setAdd acc p x).mp hx with hx | rfl
        · exact hacc x hx
        · exact find_lt_length hfind
      · intro x
        rw [h4 x]
        constructor
        · rintro (hx | hex)
          · rcases (mem_setAdd acc p x).mp hx with hx | rfl
            · exact Or.inl hx
            · exact Or.inr ⟨id, List.mem_cons_self _ _, hfind⟩
          · obtain ⟨id', hid', hfx⟩ := hex
            exact Or.inr ⟨id', List.mem_cons_of_mem _ hid', hfx⟩
        · rintro (hx | ⟨id', hid', hfx⟩)
          · exact Or.inl ((mem_setAdd acc p x).mpr (Or.inl hx))
          · rcases List.mem_cons.mp hid' with rfl | hid'
            · rw [hfind] at hfx
              cases Option.some.inj hfx
              exact Or.inl ((mem_setAdd acc p p).mpr (Or.inr rfl))
            · exact Or.inr ⟨id', hid', hfx⟩

theorem resolveIds_error_kind (g : Graph) :
    ∀ (ids : List String) (acc : List Nat) (e : Err),
      resolveIds g ids acc = .error e →
      ∃ id, e = .unknownMulti id := by
  intro ids
  induction ids with
  | nil => intro acc e h; cases h
  | cons id rest ih =>
    intro acc e h
    simp only [resolveIds] at h
    cases hfind : g.find id with
    | none =>
      rw [hfind] at h
      cases h
      exact ⟨id, rfl⟩
    | some p =>
      rw [hfind] at h
      exact ih _ e h

theorem dstUp_error_kind (g : Graph) :
    ∀ (fuel : Nat) (ℓ : Int) (p : Nat) (m : AMap) (e : Err),
      dstUp g fuel ℓ p m = .error e →
      e = .fuel ∨ ∃ nm, e = .contra nm := by
  intro fuel
  induction fuel with
  | zero =>
    intro ℓ p m e h
    simp only [dstUp] at h
    cases h
    exact Or.inl rfl
  | succ fuel ih =>
    intro ℓ p m e h
    have hfold : ∀ mstart,
        foldSteps (fun c acc => dstUp g fuel (ℓ + 1) c acc) (g.cons p)
          mstart = .error e →
        e = .fuel ∨ ∃ nm, e = .contra nm := by
      intro mstart hferr
      obtain ⟨cs₁, c, cs₂, mm, _, _, herr⟩ := foldSteps_error_elim hferr
      exact ih (ℓ + 1) c mm e herr
    cases hmp : mapGet m p with
    | none =>
      rw [dstUp_succ_none g fuel ℓ p m hmp] at h
      exact hfold _ h
    | some ev =>
      rw [dstUp_succ_some g fuel ℓ p m ev hmp] at h
      by_cases he0 : ev = 0
      · rw [if_pos he0] at h
        exact hfold _ h
      · rw [if_neg he0] at h
        by_cases hneg : ev < 0
        · rw [if_pos hneg] at h
          cases h
          exact Or.inr ⟨g.nameOf p, rfl⟩
        · rw [if_neg hneg] at h
          by_cases hle : ℓ ≤ ev
          · rw [if_pos hle] at h
            cases h
          · rw [if_neg hle] at h
            exact hfold _ h

theorem dstDown_error_kind (g : Graph) :
    ∀ (fuel : Nat) (ℓ : Int) (p : Nat) (m : AMap) (e : Err),
      dstDown g fuel ℓ p m = .error e →
      e = .fuel ∨ ∃ nm, e = .contra nm := by
  intro fuel
  induction fuel with
  | zero =>
    intro ℓ p m e h
    simp only [dstDown] at h
    cases h
    exact Or.inl rfl
  | succ fuel ih =>
    intro ℓ p m e h
    have hfold : ∀ mstart,
        foldSteps (fun c acc => dstDown g fuel (ℓ - 1) c acc) (g.deps p)
          mstart = .error e →
        e = .fuel ∨ ∃ nm, e = .contra nm := by
      intro mstart hferr
      obtain ⟨cs₁, c, cs₂, mm, _, _, herr⟩ := foldSteps_error_elim hferr
      exact ih (ℓ - 1) c mm e herr
    cases hmp : mapGet m p with
    | none =>
      rw [dstDown_succ_none g fuel ℓ p m hmp] at h
      exact hfold _ h
    | some ev =>
      rw [dstDown_succ_some g fuel ℓ p m ev hmp] at h
      by_cases he0 : ev = 0
      · rw [if_pos he0] at h
        exact hfold _ h
      · rw [if_neg he0] at h
        by_cases hpos : 0 < ev
        · rw [if_pos hpos] at h
          cases h
          exact Or.inr ⟨g.nameOf p, rfl⟩
        · rw [if_neg hpos] at h
          by_cases hle : ev ≤ ℓ
          · rw [if_pos hle] at h
            cases h
          · rw [if_neg hle] at h
            exact hfold _ h

theorem order_error_kind {g : Graph} {id : String} {i a b : Bool}
    {f : Nat} {e : Err} (h : order g id i a b f = .error e) :
    e = .unknownOrder id ∨ e = .fuel ∨ ∃ nm, e = .contra nm := by
  unfold order at h
  cases hfind : g.find id with
  | none =>
    rw [hfind] at h
    cases h
    exact Or.inl rfl
  | some center =>
    simp only [hfind] at h
    cases h1 : (if a then dstUp g f 0 center (mapSet [] center 0)
        else .ok (mapSet [] center 0)) with
    | error e1 =>
      simp only [h1] at h
      cases h
      cases a with
      | false =>
        rw [if_neg (by simp)] at h1
        cases h1
      | true =>
        rw [if_pos rfl] at h1
        exact Or.inr (dstUp_error_kind g f 0 center _ _ h1)
    | ok m1 =>
      simp only [h1] at h
      cases h2 : (if b then dstDown g f 0 center m1 else .ok m1) with
      | error e2 =>
        simp only [h2] at h
        cases h
        cases b with
        | false =>
          rw [if_neg (by simp)] at h2
          cases h2
        | true =>
          rw [if_pos rfl] at h2
          exact Or.inr (dstDown_error_kind g f 0 center m1 _ h2)
      | ok m2 =>
        simp only [h2] at h
        cases h

theorem order_ok_nodup {g : Graph} {id : String} {i a b : Bool}
    {f : Nat} {r : List Nat} (h : order g id i a b f = .ok r) :
    r.Nodup := by
  obtain ⟨center, m1, m2, _, _, _, hr⟩ := order_ok_elim h
  rw [hr]
  exact nodup_flattenByLevel _

theorem order_center_mem {g : Graph} {id : String} {a b : Bool}
    {f : Nat} {r : List Nat} {center : Nat}
    (h : order g id true a b f = .ok r)
    (hfind : g.find id = some center) : center ∈ r := by
  obtain ⟨center', m2, hfind', hr, F⟩ := order_ok_final h
  rw [hfind] at hfind'
  cases Option.some.inj hfind'
  obtain ⟨v, hv⟩ := F.2.1
  rw [hr, if_pos rfl, mem_flattenByLevel]
  exact List.mem_map.mpr ⟨(center, v), mapGet_some_mem _ _ _ hv, rfl⟩

/-! ### Pivot-search and merge-step lemmas -/

theorem scanSet_none_mem :
    ∀ (s acc u : List Nat), scanSet s acc = (none, u) →
      ∀ x, x ∈ u ↔ x ∈ acc ∨ x ∈ s := by
  intro s
  induction s with
  | nil =>
    intro acc u h x
    cases h
    simp
  | cons y ys ih =>
    intro acc u h x
    simp only [scanSet] at h
    by_cases hy : y ∈ acc
    · rw [if_pos hy] at h
      cases h
    · rw [if_neg hy] at h
      rw [ih _ _ h x, List.mem_append]
      constructor
      · rintro ((hx | hx) | hx)
        · exact Or.inl hx
        · rcases List.mem_singleton.mp hx with rfl
          exact Or.inr (List.mem_cons_self _ _)
        · exact Or.inr (List.mem_cons_of_mem _ hx)
      · rintro (hx | hx)
        · exact Or.inl (Or.inl hx)
        · rcases List.mem_cons.mp hx with rfl | hx
          · exact Or.inl (Or.inr (List.mem_singleton.mpr rfl))
          · exact Or.inr hx

theorem scanSet_none_nodup :
    ∀ (s acc u : List Nat), scanSet s acc = (none, u) →
      acc.Nodup → u.Nodup := by
  intro s
  induction s with
  | nil =>
    intro acc u h hn
    cases h
    exact hn
  | cons y ys ih =>
    intro acc u h hn
    simp only [scanSet] at h
    by_cases hy : y ∈ acc
    · rw [if_pos hy] at h
      cases h
    · rw [if_neg hy] at h
      refine ih _ _ h ?_
      exact List.Nodup.append hn (List.nodup_singleton y)
        (by simpa [List.disjoint_singleton] using hy)

theorem scanSet_some :
    ∀ (s acc u : List Nat) (p : Nat), s.Nodup →
      scanSet s acc = (some p, u) → p ∈ s ∧ p ∈ acc := by
  intro s
  induction s with
  | nil => intro acc u p _ h; cases h
  | cons y ys ih =>
    intro acc u p hnd h
    simp only [scanSet] at h
    by_cases hy : y ∈ acc
    · rw [if_pos hy] at h
      cases h
      exact ⟨List.mem_cons_self _ _, hy⟩
    · rw [if_neg hy] at h
      obtain ⟨hps, hpa⟩ :=
        ih _ _ p (List.nodup_cons.mp hnd).2 h
      rcases List.mem_append.mp hpa with hpa | hpy
      · exact ⟨List.mem_cons_of_mem _ hps, hpa⟩
      · rcases List.mem_singleton.mp hpy with rfl
        exact absurd hps (List.nodup_cons.mp hnd).1

theorem scanSets_none_mem :
    ∀ (sets : List (List Nat)) (acc u : List Nat),
      scanSets sets acc = (none, u) →
      ∀ x, x ∈ u ↔ x ∈ acc ∨ ∃ s ∈ sets, x ∈ s := by
  intro sets
  induction sets with
  | nil =>
    intro acc u h x
    cases h
    simp
  | cons s rest ih =>
    intro acc u h x
    cases hs : scanSet s acc with
    | mk op acc' =>
      cases op with
      | some q =>
        have heq : scanSets (s :: rest) acc = (some q, acc') := by
          simp only [scanSets, hs]
        rw [heq] at h
        cases h
      | none =>
        have heq : scanSets (s :: rest) acc = scanSets rest acc' := by
          simp only [scanSets, hs]
        rw [heq] at h
        rw [ih _ _ h x, scanSet_none_mem s acc acc' hs x]
        constructor
        · rintro ((hx | hx) | ⟨s', hs', hx⟩)
          · exact Or.inl hx
          · exact Or.inr ⟨s, List.mem_cons_self _ _, hx⟩
          · exact Or.inr ⟨s', List.mem_cons_of_mem _ hs', hx⟩
        · rintro (hx | ⟨s', hs', hx⟩)
          · exact Or.inl (Or.inl hx)
          · rcases List.mem_cons.mp hs' with rfl | hs'
            · exact Or.inl (Or.inr hx)
            · exact Or.inr ⟨s', hs', hx⟩

theorem scanSets_none_nodup :
    ∀ (sets : List (List Nat)) (acc u : List Nat),
      scanSets sets acc = (none, u) → acc.Nodup → u.Nodup := by
  intro sets
  induction sets with
  | nil =>
    intro acc u h hn
    cases h
    exact hn
  | cons s rest ih =>
    intro acc u h hn
    cases hs : scanSet s acc with
    | mk op acc' =>
      cases op with
      | some q =>
        have heq : scanSets (s :: rest) acc = (some q, acc') := by
          simp only [scanSets, hs]
        rw [heq] at h
        cases h
      | none =>
        have heq : scanSets (s :: rest) acc = scanSets rest acc' := by
          simp only [scanSets, hs]
        rw [heq] at h
        exact ih _ _ h (scanSet_none_nodup s acc acc' hs hn)

theorem scanSets_some_count :
    ∀ (sets prev : List (List Nat)) (acc u : List Nat) (p : Nat),
      (∀ s ∈ sets, s.Nodup) →
      (∀ x ∈ acc, ∃ s ∈ prev, x ∈ s) →
      scanSets sets acc = (some p, u) →
      2 ≤ (prev ++ sets).countP (fun s => decide (p ∈ s)) := by
  intro sets
  induction sets with
  | nil => intro prev acc u p _ _ h; cases h
  | cons s rest ih =>
    intro prev acc u p hnd hacc h
    cases hs : scanSet s acc with
    | mk op acc' =>
      cases op with
      | some q =>
        have heq : scanSets (s :: rest) acc = (some q, acc') := by
          simp only [scanSets, hs]
        rw [heq] at h
        cases h
        obtain ⟨hqs, hqa⟩ :=
          scanSet_some s acc u p (hnd s (List.mem_cons_self _ _)) hs
        obtain ⟨s', hs', hqs'⟩ := hacc p hqa
        rw [List.countP_append]
        have h1 : 0 < prev.countP (fun t => decide (p ∈ t)) :=
          List.countP_pos_iff.mpr ⟨s', hs', by simpa using hqs'⟩
        have h2 : 0 < (s :: rest).countP (fun t => decide (p ∈ t)) :=
          List.countP_pos_iff.mpr
            ⟨s, List.mem_cons_self _ _, by simpa using hqs⟩
        omega
      | none =>
        have heq : scanSets (s :: rest) acc = scanSets rest acc' := by
          simp only [scanSets, hs]
        rw [heq] at h
        have hacc' : ∀ x ∈ acc', ∃ t ∈ prev ++ [s], x ∈ t := by
          intro x hx
          rcases (scanSet_none_mem s acc acc' hs x).mp hx with hx | hx
          · obtain ⟨t, ht, hxt⟩ := hacc x hx
            exact ⟨t, List.mem_append.mpr (Or.inl ht), hxt⟩
          · exact ⟨s, List.mem_append.mpr
              (Or.inr (List.mem_singleton.mpr rfl)), hx⟩
        have hres := ih (prev ++ [s]) acc' u p
          (fun t ht => hnd t (List.mem_cons_of_mem _ ht)) hacc' h
        rw [List.append_assoc] at hres
        simpa using hres

theorem findAnyIntersection_none {RS : List (List Nat)} {U : List Nat}
    (h : findAnyIntersection RS = (U, none)) :
    U.Nodup ∧ ∀ x, x ∈ U ↔ ∃ s ∈ RS, x ∈ s := by
  cases hs : scanSets RS [] with
  | mk op u =>
    cases op with
    | some p =>
      have heq : findAnyIntersection RS =
          ((match RS.filter (fun s => p ∈ s) with
            | [] => []
            | f :: _ => f).filter
              (fun x => (RS.filter (fun s => p ∈ s)).all
                (fun s => x ∈ s)),
           some (RS.filter (fun s => p ∈ s))) := by
        unfold findAnyIntersection
        rw [hs]
      rw [heq] at h
      cases h
    | none =>
      have heq : findAnyIntersection RS = (u, none) := by
        unfold findAnyIntersection
        rw [hs]
      rw [heq] at h
      cases h
      refine ⟨scanSets_none_nodup RS [] U hs (by simp), ?_⟩
      intro x
      rw [scanSets_none_mem RS [] U hs x]
      simp

theorem findAnyIntersection_eq_some (RS : List (List Nat)) (p : Nat)
    (u : List Nat) (hs : scanSets RS [] = (some p, u)) :
    findAnyIntersection RS =
      (((RS.filter (fun s => p ∈ s)).headD []).filter
        (fun x => (RS.filter (fun s => p ∈ s)).all (fun s => x ∈ s)),
       some (RS.filter (fun s => p ∈ s))) := by
  unfold findAnyIntersection
  simp only [hs]
  cases hfil : RS.filter (fun s => p ∈ s) with
  | nil => rfl
  | cons f r2 => rfl

theorem findAnyIntersection_some {RS : List (List Nat)}
    {I : List Nat} {inter : List (List Nat)}
    (hnd : ∀ s ∈ RS, s.Nodup)
    (h : findAnyIntersection RS = (I, some inter)) :
    ∃ p first rest2,
      inter = RS.filter (fun s => p ∈ s) ∧
      inter = first :: rest2 ∧
      2 ≤ inter.length ∧
      I.Nodup ∧
      (∀ x ∈ I, ∀ s ∈ inter, x ∈ s) ∧
      I.length ≤ first.length ∧
      (∀ s ∈ inter, p ∈ s ∧ s ∈ RS) := by
  cases hs : scanSets RS [] with
  | mk op u =>
    cases op with
    | none =>
      have heq : findAnyIntersection RS = (u, none) := by
        unfold findAnyIntersection
        rw [hs]
      rw [heq] at h
      cases h
    | some p =>
      have heval := findAnyIntersection_eq_some RS p u hs
      rw [heval] at h
      have hI : ((RS.filter (fun s => p ∈ s)).headD []).filter
          (fun x => (RS.filter (fun s => p ∈ s)).all (fun s => x ∈ s))
          = I := congrArg Prod.fst h
      have hinter : RS.filter (fun s => p ∈ s) = inter := by
        have hsnd := congrArg Prod.snd h
        simpa using hsnd
      have hcount := scanSets_some_count RS [] [] u p hnd (by simp) hs
      rw [List.nil_append, List.countP_eq_length_filter, hinter]
        at hcount
      obtain ⟨first, rest2, hshape⟩ : ∃ f r2, inter = f :: r2 := by
        cases hcase : inter with
        | nil =>
          rw [hcase] at hcount
          simp at hcount
        | cons f r2 => exact ⟨f, r2, rfl⟩
      have hmemRS : ∀ s ∈ inter, p ∈ s ∧ s ∈ RS := by
        intro s hsin
        rw [← hinter] at hsin
        have := List.mem_filter.mp hsin
        exact ⟨by simpa using this.2, this.1⟩
      have hfirstRS : first ∈ RS :=
        (hmemRS first (hshape ▸ List.mem_cons_self _ _)).2
      have hhead : (RS.filter (fun s => p ∈ s)).headD [] = first := by
        rw [hinter, hshape]
        rfl
      refine ⟨p, first, rest2, hinter.symm, hshape, hcount, ?_, ?_, ?_,
        hmemRS⟩
      · rw [← hI]
        exact List.Nodup.filter _
          (by rw [hhead]; exact hnd first hfirstRS)
      · intro x hx s hsin
        rw [← hI] at hx
        have hall := (List.mem_filter.mp hx).2
        rw [← hinter] at hsin
        exact of_decide_eq_true (List.all_eq_true.mp hall s hsin)
      · rw [← hI, hhead]
        exact List.length_filter_le _ _

theorem sizes_foldl : ∀ (L : List (List Nat)) (a : Nat),
    L.foldl (fun n s => n + s.length) a
      = a + (L.map List.length).sum := by
  intro L
  induction L with
  | nil => intro a; simp
  | cons s L ih =>
    intro a
    simp only [List.foldl_cons, List.map_cons, List.sum_cons, ih]
    omega

theorem smartMerge_facts {I : List Nat} {inter : List (List Nat)}
    (hno : ¬ I.length = inter.foldl (fun n s => n + s.length) 0) :
    (smartMergeIntersectingSets I inter).Nodup ∧
    ∀ x, x ∈ smartMergeIntersectingSets I inter ↔
      x ∈ I ∨ ∃ s ∈ inter, x ∈ s := by
  unfold smartMergeIntersectingSets
  rw [if_neg hno]
  refine ⟨nodup_mergeRun I inter [] (by simp), ?_⟩
  intro x
  rw [mem_mergeRun]
  simp

theorem smartMerge_no_fast {I first : List Nat}
    {inter rest2 : List (List Nat)} {p : Nat}
    (hshape : inter = first :: rest2)
    (hlen2 : 2 ≤ inter.length)
    (hIlen : I.length ≤ first.length)
    (hpin : ∀ s ∈ inter, p ∈ s) :
    ¬ I.length = inter.foldl (fun n s => n + s.length) 0 := by
  have hs2ex : ∃ s2 rest3, rest2 = s2 :: rest3 := by
    cases hr : rest2 with
    | nil =>
      rw [hshape, hr] at hlen2
      simp at hlen2
    | cons s2 rest3 => exact ⟨s2, rest3, rfl⟩
  obtain ⟨s2, rest3, hr⟩ := hs2ex
  subst hr
  subst hshape
  rw [sizes_foldl]
  simp only [List.map_cons, List.sum_cons]
  have hs2 : p ∈ s2 := hpin s2 (List.mem_cons_of_mem _
    (List.mem_cons_self _ _))
  have hs2len : 1 ≤ s2.length :=
    List.length_pos.mpr (List.ne_nil_of_mem hs2)
  omega

/-! ### Loop invariants of the harvest and merge loops -/

theorem countP_disjoint_le (l : List (List Nat))
    (q r : List Nat → Bool)
    (hdisj : ∀ s ∈ l, ¬ (q s = true ∧ r s = true)) :
    l.countP q + l.countP r ≤ l.length := by
  induction l with
  | nil => simp
  | cons s l ih =>
    rw [List.countP_cons, List.countP_cons, List.length_cons]
    have hd := hdisj s (List.mem_cons_self _ _)
    have hrec := ih (fun t ht => hdisj t (List.mem_cons_of_mem _ ht))
    by_cases hq : q s = true
    · have hr : ¬ r s = true := fun hr => hd ⟨hq, hr⟩
      simp only [if_pos hq, if_neg hr]
      omega
    · simp only [if_neg hq]
      by_cases hr : r s = true
      · simp only [if_pos hr]
        omega
      · simp only [if_neg hr]
        omega

theorem harvestGo_good (g : Graph) (d : Nat) (req : List Nat)
    (hres : NamesResolve g) (hlt : ∀ x ∈ req, x < g.nodes.length) :
    ∀ (lf li : Nat) (missing : List Nat) (rs : List (List Nat)),
      (∀ x ∈ missing, x ∈ req) →
      li + missing.length ≤ LOOP_SAFETY →
      missing.length + 1 ≤ lf →
      rs.length ≤ li →
      (∀ s ∈ rs, s.Nodup) →
      (¬ harvestGo g d req lf li missing rs = .error .loop)
      ∧ (∀ RS, harvestGo g d req lf li missing rs = .ok RS →
          RS.length ≤ LOOP_SAFETY ∧ ∀ s ∈ RS, s.Nodup) := by
  intro lf
  induction lf with
  | zero =>
    intro li missing rs _ _ hfuel _ _
    exact absurd hfuel (by omega)
  | succ lf ih =>
    intro li missing rs hmem hsafety hfuel hrslen hrsnd
    cases missing with
    | nil =>
      simp only [List.length_nil] at hsafety
      refine ⟨fun h => ?_, fun RS h => ?_⟩
      · have hh : (Except.ok rs : Except Err (List (List Nat)))
            = .error .loop := h
        cases hh
      · have hh : (Except.ok rs : Except Err (List (List Nat)))
            = .ok RS := h
        cases hh
        exact ⟨by omega, hrsnd⟩
    | cons requested missingRest =>
      simp only [List.length_cons] at hsafety hfuel
      have hreqmem : requested ∈ req :=
        hmem requested (List.mem_cons_self _ _)
      have hfind : g.find (g.nameOf requested) = some requested :=
        hres requested (hlt requested hreqmem)
      cases ho : order g (g.nameOf requested) true true true d with
      | error e =>
        refine ⟨fun h => ?_, fun RS h => ?_⟩
        · simp only [harvestGo, ho] at h
          cases h
          rcases order_error_kind ho with he | he | ⟨nm, he⟩
          · cases he
          · cases he
          · cases he
        · simp only [harvestGo, ho] at h
          cases h
      | ok resultProjects =>
        have hcenter : requested ∈ resultProjects :=
          order_center_mem ho hfind
        have hfiltmem : requested ∈ intersect resultProjects req := by
          unfold intersect
          exact List.mem_filter.mpr ⟨hcenter, by simpa using hreqmem⟩
        have hfilnd : (intersect resultProjects req).Nodup := by
          unfold intersect
          exact List.Nodup.filter _ (order_ok_nodup ho)
        by_cases hsz : (intersect resultProjects req).length = req.length
        · refine ⟨fun h => ?_, fun RS h => ?_⟩
          · simp only [harvestGo, ho, if_pos hsz] at h
            cases h
          · simp only [harvestGo, ho, if_pos hsz] at h
            cases h
            refine ⟨by simp [LOOP_SAFETY], ?_⟩
            intro s hsmem
            rcases List.mem_singleton.mp hsmem with rfl
            exact hfilnd
        · have hcond : ¬ LOOP_SAFETY < li + 1 := by
            unfold LOOP_SAFETY at hsafety ⊢
            omega
          have hcl : checkLoop (li + 1) = .ok () := by
            unfold checkLoop
            rw [if_neg hcond]
          have hmlen : ((requested :: missingRest).filter
              (fun x => ¬ x ∈ intersect resultProjects req)).length
              ≤ missingRest.length := by
            have hstep : ((requested :: missingRest).filter
                (fun x => ¬ x ∈ intersect resultProjects req)).length
                < (requested :: missingRest).length :=
              length_filter_lt (requested :: missingRest) requested
                (List.mem_cons_self _ _) (by simp [hfiltmem])
            simp only [List.length_cons] at hstep
            omega
          have hrec := ih (li + 1)
            ((requested :: missingRest).filter
              (fun x => ¬ x ∈ intersect resultProjects req))
            (rs ++ [intersect resultProjects req])
            (fun x hx => hmem x (List.mem_of_mem_filter hx))
            (by omega)
            (by omega)
            (by rw [List.length_append]; simp; omega)
            (by
              intro s hsmem
              rcases List.mem_append.mp hsmem with hsmem | hsmem
              · exact hrsnd s hsmem
              · rcases List.mem_singleton.mp hsmem with rfl
                exact hfilnd)
          refine ⟨fun h => ?_, fun RS h => ?_⟩
          · simp only [harvestGo, ho, if_neg hsz, hcl] at h
            exact hrec.1 h
          · simp only [harvestGo, ho, if_neg hsz, hcl] at h
            exact hrec.2 RS h

theorem harvestGo_ok_spec (g : Graph) (d : Nat) (req : List Nat)
    (hreqnd : req.Nodup) :
    ∀ (lf li : Nat) (missing : List Nat) (rs RS : List (List Nat)),
      harvestGo g d req lf li missing rs = .ok RS →
      (∀ s ∈ rs, s.Nodup ∧ ∀ x ∈ s, x ∈ req) →
      (∀ x ∈ req, x ∈ missing ∨ ∃ s ∈ rs, x ∈ s) →
      (∀ s ∈ RS, s.Nodup ∧ ∀ x ∈ s, x ∈ req)
      ∧ (∀ x ∈ req, ∃ s ∈ RS, x ∈ s) := by
  intro lf
  induction lf with
  | zero =>
    intro li missing rs RS h _ _
    simp only [harvestGo] at h
    cases h
  | succ lf ih =>
    intro li missing rs RS h hrs hcover
    cases missing with
    | nil =>
      have hh : (Except.ok rs : Except Err (List (List Nat)))
          = .ok RS := h
      cases hh
      refine ⟨hrs, fun x hx => ?_⟩
      rcases hcover x hx with hx' | hx'
      · cases hx'
      · exact hx'
    | cons requested missingRest =>
      cases ho : order g (g.nameOf requested) true true true d with
      | error e =>
        simp only [harvestGo, ho] at h
        cases h
      | ok resultProjects =>
        have hfilnd : (intersect resultProjects req).Nodup := by
          unfold intersect
          exact List.Nodup.filter _ (order_ok_nodup ho)
        have hfilsub : ∀ x ∈ intersect resultProjects req, x ∈ req := by
          intro x hx
          unfold intersect at hx
          have hmem := List.mem_filter.mp hx
          simpa using hmem.2
        by_cases hsz : (intersect resultProjects req).length = req.length
        · simp only [harvestGo, ho, if_pos hsz] at h
          cases h
          have hsub : ∀ x ∈ req, x ∈ intersect resultProjects req := by
            have hfin : (intersect resultProjects req).toFinset
                = req.toFinset := by
              apply Finset.eq_of_subset_of_card_le
              · intro a ha
                rw [List.mem_toFinset] at ha ⊢
                exact hfilsub a ha
              · rw [List.toFinset_card_of_nodup hreqnd,
                  List.toFinset_card_of_nodup hfilnd, hsz]
            intro x hx
            have hxf : x ∈ (intersect resultProjects req).toFinset := by
              rw [hfin, List.mem_toFinset]
              exact hx
            rwa [List.mem_toFinset] at hxf
          refine ⟨?_, fun x hx =>
            ⟨intersect resultProjects req, List.mem_singleton.mpr rfl,
              hsub x hx⟩⟩
          intro s hsmem
          rcases List.mem_singleton.mp hsmem with rfl
          exact ⟨hfilnd, hfilsub⟩
        · cases hcl : checkLoop (li + 1) with
          | error e =>
            simp only [harvestGo, ho, if_neg hsz, hcl] at h
            cases h
          | ok u =>
            cases u
            simp only [harvestGo, ho, if_neg hsz, hcl] at h
            refine ih (li + 1) _ _ RS h ?_ ?_
            · intro s hsmem
              rcases List.mem_append.mp hsmem with hsmem | hsmem
              · exact hrs s hsmem
              · rcases List.mem_singleton.mp hsmem with rfl
                exact ⟨hfilnd, hfilsub⟩
            · intro x hx
              rcases hcover x hx with hxm | ⟨s, hsm, hxs⟩
              · by_cases hxf : x ∈ intersect resultProjects req
                · exact Or.inr ⟨intersect resultProjects req,
                    List.mem_append.mpr
                      (Or.inr (List.mem_singleton.mpr rfl)), hxf⟩
                · exact Or.inl (List.mem_filter.mpr
                    ⟨hxm, by simpa using hxf⟩)
              · exact Or.inr ⟨s, List.mem_append.mpr (Or.inl hsm), hxs⟩

theorem mergeGo_good (g : Graph) :
    ∀ (lf li : Nat) (RS : List (List Nat)),
      (∀ s ∈ RS, s.Nodup) →
      li + RS.length ≤ LOOP_SAFETY + 1 →
      RS.length + 1 ≤ lf →
      ¬ mergeGo g lf li RS = .error .loop := by
  intro lf
  induction lf with
  | zero =>
    intro li RS _ _ hfuel
    exact absurd hfuel (by omega)
  | succ lf ih =>
    intro li RS hnd hsafety hfuel h
    cases hfi : findAnyIntersection RS with
    | mk I ointer =>
      cases ointer with
      | none =>
        simp only [mergeGo, hfi] at h
        cases h
      | some intersected =>
        obtain ⟨p, first, rest2, hfilt, hshape, hlen2, hInd, hImem,
          hIlen, hmemRS⟩ := findAnyIntersection_some hnd hfi
        have hnofast := smartMerge_no_fast hshape hlen2 hIlen
          (fun s hs => (hmemRS s hs).1)
        have hmerged := smartMerge_facts hnofast
        have hinterle : intersected.length ≤ RS.length := by
          rw [hfilt]
          exact List.length_filter_le _ _
        have hcond : ¬ LOOP_SAFETY < li + 1 := by
          unfold LOOP_SAFETY at hsafety ⊢
          omega
        have hcl : checkLoop (li + 1) = .ok () := by
          unfold checkLoop
          rw [if_neg hcond]
        have hcount : (RS.filter
              (fun s => ¬ s ∈ intersected)).length
            + intersected.length ≤ RS.length := by
          have e1 : intersected.length
              = RS.countP (fun s => decide (p ∈ s)) := by
            rw [hfilt, List.countP_eq_length_filter]
          have e2 : (RS.filter (fun s => ¬ s ∈ intersected)).length
              = RS.countP (fun s => decide (¬ s ∈ intersected)) := by
            rw [List.countP_eq_length_filter]
          rw [e1, e2]
          apply countP_disjoint_le
          rintro s hs ⟨h1, h2⟩
          have hnotin : ¬ s ∈ intersected := of_decide_eq_true h1
          have hpin : p ∈ s := of_decide_eq_true h2
          exact hnotin (hfilt ▸ List.mem_filter.mpr
            ⟨hs, by simpa using hpin⟩)
        simp only [mergeGo, hfi, hcl] at h
        refine ih (li + 1) _ ?_ ?_ ?_ h
        · intro s hsmem
          rcases List.mem_append.mp hsmem with hsmem | hsmem
          · exact hnd s (List.mem_of_mem_filter hsmem)
          · rcases List.mem_singleton.mp hsmem with rfl
            exact hmerged.1
        · rw [List.length_append]
          simp only [List.length_singleton]
          omega
        · rw [List.length_append]
          simp only [List.length_singleton]
          omega

theorem mergeGo_ok_spec (g : Graph) :
    ∀ (lf li : Nat) (RS : List (List Nat)) (r : List Nat),
      (∀ s ∈ RS, s.Nodup) →
      mergeGo g lf li RS = .ok r →
      r.Nodup ∧ ∀ x, x ∈ r ↔ ∃ s ∈ RS, x ∈ s := by
  intro lf
  induction lf with
  | zero =>
    intro li RS r _ h
    simp only [mergeGo] at h
    cases h
  | succ lf ih =>
    intro li RS r hnd h
    cases hfi : findAnyIntersection RS with
    | mk I ointer =>
      cases ointer with
      | none =>
        simp only [mergeGo, hfi] at h
        cases h
        exact findAnyIntersection_none hfi
      | some intersected =>
        obtain ⟨p, first, rest2, hfilt, hshape, hlen2, hInd, hImem,
          hIlen, hmemRS⟩ := findAnyIntersection_some hnd hfi
        have hnofast := smartMerge_no_fast hshape hlen2 hIlen
          (fun s hs => (hmemRS s hs).1)
        have hmerged := smartMerge_facts hnofast
        cases hcl : checkLoop (li + 1) with
        | error e =>
          simp only [mergeGo, hfi, hcl] at h
          cases h
        | ok u =>
          cases u
          simp only [mergeGo, hfi, hcl] at h
          have hnd' : ∀ s ∈ RS.filter (fun s => ¬ s ∈ intersected)
              ++ [smartMergeIntersectingSets I intersected],
              s.Nodup := by
            intro s hsmem
            rcases List.mem_append.mp hsmem with hsmem | hsmem
            · exact hnd s (List.mem_of_mem_filter hsmem)
            · rcases List.mem_singleton.mp hsmem with rfl
              exact hmerged.1
          obtain ⟨hr1, hr2⟩ := ih (li + 1) _ r hnd' h
          refine ⟨hr1, fun x => ?_⟩
          rw [hr2 x]
          constructor
          · rintro ⟨s, hs, hx⟩
            rcases List.mem_append.mp hs with hs | hs
            · exact ⟨s, List.mem_of_mem_filter hs, hx⟩
            · rcases List.mem_singleton.mp hs with rfl
              rcases (hmerged.2 x).mp hx with hxI | ⟨t, ht, hxt⟩
              · exact ⟨first,
                  (hmemRS first (hshape ▸ List.mem_cons_self _ _)).2,
                  hImem x hxI first (hshape ▸ List.mem_cons_self _ _)⟩
              · exact ⟨t, (hmemRS t ht).2, hxt⟩
          · rintro ⟨s, hs, hx⟩
            by_cases hsi : s ∈ intersected
            · refine ⟨smartMergeIntersectingSets I intersected,
                List.mem_append.mpr
                  (Or.inr (List.mem_singleton.mpr rfl)), ?_⟩
              exact (hmerged.2 x).mpr (Or.inr ⟨s, hsi, hx⟩)
            · exact ⟨s, List.mem_append.mpr (Or.inl
                (List.mem_filter.mpr ⟨hs, by simpa using hsi⟩)), hx⟩

/-- C8 (confirmed): the loop-safety error of `orderMultiple` behaves as
specified.  (1) Whenever every node's name resolves back to itself (the
shape `parseGraph` guarantees) and at most 20 identifiers are requested,
the call never fails with the loop-safety error — the harvest loop
removes at least one missing project per iteration and the merge loop
removes at least one result set per iteration, so neither counter can
exceed the bound of 20; the error therefore arises in no other
circumstance.  (2) With 21 pairwise-disconnected requested projects the
harvest loop's counter reaches 21 right after its 21st iteration and the
call fails with the loop-safety error instead of iterating further,
while (3) with 20 such projects all 20 iterations pass the check and the
call succeeds. -/
theorem claim8_theorem :
    (∀ (g : Graph) (ids : List String) (f : Nat),
      NamesResolve g → ids.length ≤ LOOP_SAFETY →
      ¬ orderMultiple g ids f = .error .loop)
    ∧ orderMultiple (isoGraph 21) (isoIds 21) 3 = .error .loop
    ∧ orderMultiple (isoGraph 20) (isoIds 20) 3
        = .ok (List.range 20) := by
  refine ⟨?_, by rfl, by rfl⟩
  intro g ids f hres hlen h
  unfold orderMultiple at h
  cases hrs : resolveIds g ids [] with
  | error e =>
    rw [hrs] at h
    cases h
    obtain ⟨id, hid⟩ := resolveIds_error_kind g ids [] _ hrs
    cases hid
  | ok req =>
    simp only [hrs] at h
    obtain ⟨hlen2, hnodup, hltfun, hmemiff⟩ :=
      resolveIds_ok_facts g ids [] req hrs
    have hreqlen : req.length ≤ LOOP_SAFETY := by
      simp only [List.length_nil] at hlen2
      omega
    have hlt : ∀ x ∈ req, x < g.nodes.length :=
      hltfun (by intro x hx; cases hx)
    by_cases hz : req.length = 0
    · rw [if_pos hz] at h
      cases h
    · rw [if_neg hz] at h
      have hgood := harvestGo_good g f req hres hlt loopFuel 0 req []
        (fun x hx => hx)
        (by omega)
        (by unfold loopFuel; unfold LOOP_SAFETY at hreqlen; omega)
        (by simp)
        (by intro s hs; cases hs)
      cases hh : harvestGo g f req loopFuel 0 req [] with
      | error e =>
        simp only [hh] at h
        cases h
        exact hgood.1 hh
      | ok rs =>
        simp only [hh] at h
        obtain ⟨hrslen, hrsnd⟩ := hgood.2 rs hh
        exact mergeGo_good g loopFuel 0 rs hrsnd (by omega)
          (by unfold loopFuel; unfold LOOP_SAFETY at hrslen; omega) h

/-- Witness for C8's general part at concrete inputs: `gTopo` resolves
its own names, the two requested identifiers are within the safety
bound, and the call indeed does not fail with the loop-safety error. -/
theorem claim8_witness :
    NamesResolve gTopo
    ∧ (["n2", "n3"] : List String).length ≤ LOOP_SAFETY
    ∧ ¬ orderMultiple gTopo ["n2", "n3"] 5 = .error .loop :=
  ⟨namesResolve_of_check gTopo (by decide), by decide,
   claim8_theorem.1 gTopo ["n2", "n3"] 5
     (namesResolve_of_check gTopo (by decide)) (by decide)⟩

/-- C10 (confirmed): a successful `orderMultiple` returns exactly the
set of distinct projects the requested identifiers resolve to — every
requested project appears, no other project appears, and each appears
exactly once.  Connective-tissue projects traversed while computing the
closures are filtered out (`intersect` against the requested set) before
the slices are merged, and neither the pivot search nor the k-way merge
adds or drops elements. -/
theorem claim10_theorem (g : Graph) (ids : List String) (f : Nat)
    (r : List Nat) (h : orderMultiple g ids f = .ok r) :
    r.Nodup ∧ ∀ x, x ∈ r ↔ ∃ id ∈ ids, g.find id = some x := by
  obtain ⟨req, hres, hcase⟩ := orderMultiple_ok_elim h
  obtain ⟨hlen2, hnodup, hltfun, hmemiff⟩ :=
    resolveIds_ok_facts g ids [] req hres
  have hreqnd : req.Nodup := hnodup (by simp)
  rcases hcase with ⟨hz, rfl⟩ | ⟨hz, rs, hh, hm⟩
  · refine ⟨by simp, fun x => ?_⟩
    simp only [List.not_mem_nil, false_iff]
    rintro ⟨id, hid, hfx⟩
    have hxreq : x ∈ req := (hmemiff x).mpr (Or.inr ⟨id, hid, hfx⟩)
    have hpos : 0 < req.length :=
      List.length_pos.mpr (List.ne_nil_of_mem hxreq)
    omega
  · obtain ⟨hslice, hcover⟩ :=
      harvestGo_ok_spec g f req hreqnd loopFuel 0 req [] rs hh
        (by intro s hs; cases hs) (fun x hx => Or.inl hx)
    obtain ⟨hrnd, hrmem⟩ := mergeGo_ok_spec g loopFuel 0 rs r
      (fun s hs => (hslice s hs).1) hm
    refine ⟨hrnd, fun x => ?_⟩
    rw [hrmem x]
    constructor
    · rintro ⟨s, hs, hx⟩
      have hxreq : x ∈ req := (hslice s hs).2 x hx
      rcases (hmemiff x).mp hxreq with hx0 | hex
      · cases hx0
      · exact hex
    · rintro ⟨id, hid, hfx⟩
      exact hcover x ((hmemiff x).mpr (Or.inr ⟨id, hid, hfx⟩))

/-- Witness for C10 at a concrete input: two isolated projects requested
by name come back as exactly those two projects, without duplicates. -/
theorem claim10_witness :
    ([0, 1] : List Nat).Nodup
    ∧ ((0 : Nat) ∈ ([0, 1] : List Nat) ↔
        ∃ id ∈ isoIds 2, (isoGraph 2).find id = some 0) :=
  ⟨(claim10_theorem (isoGraph 2) (isoIds 2) 3 [0, 1] (by rfl)).1,
   (claim10_theorem (isoGraph 2) (isoIds 2) 3 [0, 1] (by rfl)).2 0⟩

end NMB
